import Mathlib

/-!
Verification of the flat-file record store of the `csc299-project` repository
(`src/tasks1/storage_markdown.py`, `src/tasks1/tasks.py`,
`src/firstTest/studynavigator.py`) against its natural-language specification.

Python strings are modelled as `List Char` where parsing is involved and as
`String` elsewhere; Python string primitives (`strip`, `split`, `splitlines`,
`startswith`, `in`, `lower`, `replace`) are given explicit executable
translations below, faithful to CPython semantics on the inputs each claim
ranges over (divergences, e.g. exotic Unicode whitespace, are noted at each
definition).
-/

/-- ASCII lower-casing, as Python `str.lower` acts on ASCII letters.
(Python also lowers non-ASCII letters; all inputs considered here are ASCII.) -/
def asciiLower (c : Char) : Char :=
  if 'A' ≤ c ∧ c ≤ 'Z' then Char.ofNat (c.toNat + 32) else c

/-- The characters Python `str.splitlines` treats as line boundaries
(`\n`, `\r`, `\x0b`, `\x0c`, `\x1c`, `\x1d`, `\x1e`, `\x85`, ` `,
` `), identified by code point. -/
def isLineBreak (c : Char) : Bool :=
  c.toNat == 10 || c.toNat == 13 || c.toNat == 11 || c.toNat == 12 ||
  c.toNat == 28 || c.toNat == 29 || c.toNat == 30 || c.toNat == 133 ||
  c.toNat == 8232 || c.toNat == 8233

/-- Characters Python `str.strip()` (no argument) removes: space, `\t`,
`\n`, `\r`, `\x0b`, `\x0c`, `\x1c`-`\x1f`, `\x85`, `\xa0`.  This is the ASCII
and Latin-1 portion of Python's whitespace; in every place `strip` is applied
below, the first and last characters of the stripped text are printable ASCII,
so the remaining Unicode space characters never matter. -/
def isPySpace (c : Char) : Bool :=
  c.toNat == 32 || c.toNat == 9 || c.toNat == 10 || c.toNat == 13 ||
  c.toNat == 11 || c.toNat == 12 || c.toNat == 28 || c.toNat == 29 ||
  c.toNat == 30 || c.toNat == 31 || c.toNat == 133 || c.toNat == 160

/-- ASCII decimal digit. -/
def isDigitChar (c : Char) : Bool := 48 ≤ c.toNat && c.toNat ≤ 57

/-- Python `s.strip(chars)` generalised over a character predicate:
drop matching characters from both ends. -/
def stripEnds (p : Char → Bool) (l : List Char) : List Char :=
  ((l.dropWhile p).reverse.dropWhile p).reverse

/-- Python `s.strip()`. -/
def pyStrip (l : List Char) : List Char := stripEnds isPySpace l

/-- `.strip('"')` as used by `list_tasks`. -/
def stripQuotes (l : List Char) : List Char := stripEnds (· = '"') l

/-- `title.replace('"', '\\"')` from `save_task`: each double quote becomes
backslash-quote. -/
def escQuotes : List Char → List Char
  | [] => []
  | c :: cs => if c = '"' then '\\' :: '"' :: escQuotes cs else c :: escQuotes cs

/-- `"\n".join(lines)` over line lists. -/
def joinNL : List (List Char) → List Char
  | [] => []
  | [l] => l
  | l :: ls => l ++ '\n' :: joinNL ls

/-- Core of Python `str.splitlines`: `acc` is the current line, reversed. -/
def splitlinesAux (acc : List Char) : List Char → List (List Char)
  | [] => if acc.isEmpty then [] else [acc.reverse]
  | '\r' :: '\n' :: rest => acc.reverse :: splitlinesAux [] rest
  | c :: rest =>
      if isLineBreak c then acc.reverse :: splitlinesAux [] rest
      else splitlinesAux (c :: acc) rest

/-- Python `str.splitlines()`. -/
def pySplitlines (l : List Char) : List (List Char) := splitlinesAux [] l

/-- Python `s.split(':', 1)`: `some (before, after)` at the first colon,
`none` when there is no colon (source guards with `if ':' in line`). -/
def splitAtColon : List Char → Option (List Char × List Char)
  | [] => none
  | c :: cs =>
    if c = ':' then some ([], cs)
    else match splitAtColon cs with
      | none => none
      | some (k, v) => some (c :: k, v)

/-- Fuel-driven digit rendering; `fuel > n` always suffices because the
argument strictly decreases under division by 10. -/
def natDigitsF : Nat → Nat → List Char
  | 0, _ => []
  | fuel + 1, n =>
    if n < 10 then [Char.ofNat (48 + n)]
    else natDigitsF fuel (n / 10) ++ [Char.ofNat (48 + n % 10)]

/-- Decimal rendering of a natural number, as Python `str(i)` for the
non-negative ints used as task ids. -/
def natDigits (n : Nat) : List Char := natDigitsF (n + 1) n

/-- Decimal value of a digit string (used to model Python `int` on the digit
strings this repository produces). -/
def digitsVal (l : List Char) : Nat :=
  l.foldl (fun a c => 10 * a + (c.toNat - 48)) 0

/-- Python `int(s)` restricted to the inputs occurring here: optional
surrounding whitespace, then a non-empty run of ASCII digits.  Any other
shape raises `ValueError` in Python, modelled as `none`. -/
def pyInt (l : List Char) : Option Nat :=
  let s := pyStrip l
  if s.isEmpty then none
  else if s.all isDigitChar then some (digitsVal s) else none

-- ---------------------------------------------------------------------------
-- storage_markdown.py : the Markdown vault model
-- ---------------------------------------------------------------------------

/-- ASCII lower-case letter or digit, i.e. the class `[a-z0-9]` of
`_slugify`'s regular expression. -/
def isLowerAlnum (c : Char) : Bool :=
  (97 ≤ c.toNat && c.toNat ≤ 122) || (48 ≤ c.toNat && c.toNat ≤ 57)

/-- `re.sub(r'[^a-z0-9]+', '-', s)`: every maximal run of characters outside
`[a-z0-9]` becomes a single hyphen.  `prevHyphen` records whether we are
inside such a run. -/
def collapseRuns (prevHyphen : Bool) : List Char → List Char
  | [] => []
  | c :: cs =>
    if isLowerAlnum c then c :: collapseRuns false cs
    else if prevHyphen then collapseRuns prevHyphen cs
    else '-' :: collapseRuns true cs

/-- `_slugify` from `storage_markdown.py`: lower-case, collapse non-alphanumeric
runs to single hyphens, strip hyphens at the ends, fall back to `task`.
(Lower-casing is modelled for ASCII letters; see `asciiLower`.) -/
def slugify (s : List Char) : List Char :=
  let t := stripEnds (· = '-') (collapseRuns false (s.map asciiLower))
  if t.isEmpty then "task".data else t

/-- `re.match(r'^(\d+)-', name)` followed by `int(m.group(1))`, as used by
`_next_id`: the maximal leading digit run, required non-empty and immediately
followed by `-`.  (The regex backtracks over shorter digit runs, but any
shorter run is followed by a digit, not `-`, so the maximal-run reading is
exact; `int` never fails on a digit run, so the `except ValueError` in
`_next_id` is dead.) -/
def extractId (name : List Char) : Option Nat :=
  let ds := name.takeWhile isDigitChar
  match ds, name.dropWhile isDigitChar with
  | [], _ => none
  | _ :: _, [] => none
  | _ :: _, c :: _ => if c = '-' then some (digitsVal ds) else none

/-- One step of `_next_id`'s scan: fold the maximum of the extracted leading
integers, starting from 0. -/
def nextIdStep (m : Nat) (name : List Char) : Nat :=
  match extractId name with
  | some k => max m k
  | none => m

/-- `_next_id` from `storage_markdown.py`, over the list of filenames in the
vault directory. -/
def next_id (names : List (List Char)) : Nat :=
  (names.foldl nextIdStep 0) + 1

/-- A file of the vault directory: its filename and its text content.  The
list order of a vault models `os.listdir` order. -/
structure MdFile where
  name : List Char
  content : List Char
deriving DecidableEq

/-- The `f"{task_id}-"` pattern that `mark_complete` and `delete_task` give to
`str.startswith`. -/
def idDash (tid : Nat) : List Char := natDigits tid ++ ['-']

/-- The filename `f"{tid}-{slug}.md"` chosen by `save_task`. -/
def taskFilename (tid : Nat) (title : List Char) : List Char :=
  natDigits tid ++ '-' :: (slugify title ++ ".md".data)

/-- The frontmatter-plus-body line list that `save_task` builds (`front` and
`body` in the source).  `created_at` is written verbatim, without the quote
escaping applied to `title` and `description`. -/
def saveLines (tid : Nat) (title description : List Char) (completed : Bool)
    (created_at : List Char) : List (List Char) :=
  ["---".data,
   "id: ".data ++ natDigits tid,
   "title: \"".data ++ escQuotes title ++ ['"'],
   "description: \"".data ++ escQuotes description ++ ['"'],
   "completed: ".data ++ (if completed then "true".data else "false".data),
   "created_at: \"".data ++ created_at ++ ['"'],
   "---".data,
   []] ++
  ["# ".data ++ title, []] ++
  (if description.isEmpty then [] else [description, []])

/-- The full file text written by `save_task`: `"\n".join(front + body)`. -/
def saveContent (tid : Nat) (title description : List Char) (completed : Bool)
    (created_at : List Char) : List Char :=
  joinNL (saveLines tid title description completed created_at)

/-- Writing a file into the vault: `open(path, "w")` replaces the content of
an existing file of that name, otherwise the directory gains a new entry. -/
def vaultWrite (vault : List MdFile) (n text : List Char) : List MdFile :=
  if vault.any (fun f => f.name = n) then
    vault.map (fun f => if f.name = n then { f with content := text } else f)
  else vault ++ [⟨n, text⟩]

/-- The id selection of `save_task`: `task_id if task_id else _next_id()`,
so both `None` and the falsy `0` trigger generation.  (The
`datetime.now()` default for a missing `created_at` is an external effect;
the model takes the resolved `created_at` string.) -/
def chooseTid (vault : List MdFile) (task_id : Option Nat) : Nat :=
  match task_id with
  | some k => if k = 0 then next_id (vault.map MdFile.name) else k
  | none => next_id (vault.map MdFile.name)

/-- The vault after `save_task`: build the filename from the chosen id and
the title's slug, render the frontmatter and body, and write the file.
Returns `(tid, vault')`. -/
def save_task (vault : List MdFile) (title description : List Char)
    (task_id : Option Nat) (completed : Bool) (created_at : List Char) :
    Nat × List MdFile :=
  (chooseTid vault task_id,
   vaultWrite vault (taskFilename (chooseTid vault task_id) title)
     (saveContent (chooseTid vault task_id) title description completed
       created_at))

/-- The ids recoverable from the vault's filenames (leading integer before the
first hyphen). -/
def vaultIds (vault : List MdFile) : List Nat :=
  (vault.map MdFile.name).filterMap extractId

/-- The frontmatter rewriting loop of `mark_complete`, after line 0: while
`inFront`, a line whose strip starts with `completed:` becomes
`completed: true`; a line stripping to `---` closes the frontmatter; every
other line is copied. -/
def mcRest (inFront : Bool) : List (List Char) → List (List Char)
  | [] => []
  | l :: ls =>
    if inFront && ("completed:".data.isPrefixOf (pyStrip l)) then
      "completed: true".data :: mcRest inFront ls
    else if inFront && (pyStrip l == "---".data) then
      l :: mcRest false ls
    else l :: mcRest inFront ls

/-- The whole line-rewriting pass of `mark_complete`: `in_front` becomes true
only when line 0 strips to `---`. -/
def mcLines : List (List Char) → List (List Char)
  | [] => []
  | l0 :: ls =>
    if pyStrip l0 = "---".data then l0 :: mcRest true ls
    else l0 :: mcRest false ls

/-- The content transformation of `mark_complete` on one file:
`"\n".join` of the rewritten `splitlines`. -/
def markCompleteContent (content : List Char) : List Char :=
  joinNL (mcLines (pySplitlines content))

/-- `mark_complete` at vault level: rewrite the first file whose name starts
with `f"{task_id}-"` and return `True`; `False` (vault unchanged) when no
name matches. -/
def mark_complete (tid : Nat) : List MdFile → Bool × List MdFile
  | [] => (false, [])
  | f :: fs =>
    if (idDash tid).isPrefixOf f.name then
      (true, { f with content := markCompleteContent f.content } :: fs)
    else
      let r := mark_complete tid fs
      (r.1, f :: r.2)

/-- `delete_task` at vault level, with an injected filesystem fault: remove
the first file whose name starts with `f"{task_id}-"` and return `True`; when
`os.remove` raises `OSError` (`osFail` true) the `except OSError` branch
returns `False` with the file still present; `False` when no name matches. -/
def delete_task_io (osFail : Bool) (tid : Nat) : List MdFile → Bool × List MdFile
  | [] => (false, [])
  | f :: fs =>
    if (idDash tid).isPrefixOf f.name then
      if osFail then (false, f :: fs) else (true, fs)
    else
      let r := delete_task_io osFail tid fs
      (r.1, f :: r.2)

/-- `delete_task` in the fault-free run. -/
def delete_task (tid : Nat) (vault : List MdFile) : Bool × List MdFile :=
  delete_task_io false tid vault

-- ---------------------------------------------------------------------------
-- storage_markdown.py : the list_tasks parser
-- ---------------------------------------------------------------------------

/-- The record fields `list_tasks` rebuilds from one Markdown file.  (The
dict in the source also carries `"file"`, the absolute path — not a record
field and not parsed from the content, so it is omitted here.) -/
structure ParsedTask where
  id : Nat
  title : List Char
  description : List Char
  completed : Bool
  created_at : List Char
deriving DecidableEq

/-- The frontmatter loop of `list_tasks`: scan lines until one strips to
`---`; for each line containing a colon, split once at the first colon and
record `k.strip() ↦ v.strip().strip('"')`. -/
def collectMeta : List (List Char) → List (List Char × List Char)
  | [] => []
  | line :: rest =>
    if pyStrip line = "---".data then []
    else
      match splitAtColon (pyStrip line) with
      | some (k, v) => (pyStrip k, stripQuotes (pyStrip v)) :: collectMeta rest
      | none => collectMeta rest

/-- `meta` as built by `list_tasks`: nonempty only when line 0 strips to
`---`. -/
def metaOf (lines : List (List Char)) : List (List Char × List Char) :=
  match lines with
  | [] => []
  | l0 :: rest => if pyStrip l0 = "---".data then collectMeta rest else []

/-- Python dict lookup over the insertion list: the last binding of a key
wins (dict assignment overwrites). -/
def dictGet (m : List (List Char × List Char)) (key : List Char) :
    Option (List Char) :=
  (m.filter (fun e => e.1 = key)).getLast?.map (·.2)

/-- ASCII lower-casing of a character list (Python `str.lower`; see
`asciiLower`). -/
def lowerChars (l : List Char) : List Char := l.map asciiLower

/-- The parsing of one file's content in `list_tasks`:
`int(meta.get("id", 0))`, `meta.get("title", "")`,
`meta.get("description", "")`,
`meta.get("completed", "false").lower() == "true"`,
`meta.get("created_at", "")`.  A malformed `id` value makes `int` raise
`ValueError` (uncaught in the source), modelled as `none`. -/
def parseTaskContent (content : List Char) : Option ParsedTask :=
  let meta := metaOf (pySplitlines content)
  let idv := match dictGet meta "id".data with
    | none => some 0
    | some v => pyInt v
  match idv with
  | none => none
  | some n =>
    some { id := n
           title := (dictGet meta "title".data).getD []
           description := (dictGet meta "description".data).getD []
           completed :=
             lowerChars ((dictGet meta "completed".data).getD "false".data)
               = "true".data
           created_at := (dictGet meta "created_at".data).getD [] }

/-- A character that is neither the double quote nor a `splitlines` line
boundary. -/
def plainChar (c : Char) : Bool := !(c == '"') && !(isLineBreak c)

-- ---------------------------------------------------------------------------
-- tasks.py : the JSON-file task store
-- ---------------------------------------------------------------------------

/-- A task record of `tasks.py` (`add_task` builds exactly these fields). -/
structure TaskJ where
  id : Nat
  title : String
  description : String
  completed : Bool
  created_at : String
deriving DecidableEq

/-- `generate_id` from `tasks.py`: 1 on an empty list, else
`max(task['id'] for task in tasks) + 1`. -/
def generate_id (tasks : List TaskJ) : Nat :=
  match tasks with
  | [] => 1
  | t :: ts => (ts.foldl (fun m x => max m x.id) t.id) + 1

/-- Python exceptions that reach this layer. -/
inductive PyErr where
  | fileNotFound
  | jsonDecode
  | osError
deriving DecidableEq

/-- `load_tasks` from `tasks.py`.  The on-disk situation is the input:
`none` — `TASKS_FILE.exists()` is false; `some none` — the file exists but
`json.load` raises `JSONDecodeError` (caught: empty list); `some (some ts)`
— the file parses to `ts`.  All three return normally. -/
def load_tasks (file : Option (Option (List TaskJ))) : List TaskJ :=
  match file with
  | none => []
  | some none => []
  | some (some ts) => ts

-- ---------------------------------------------------------------------------
-- studynavigator.py : JsonStore
-- ---------------------------------------------------------------------------

/-- An item of a `JsonStore` collection: the `"id"` entry that `upsert` and
`get` compare, and the rest of the dict, opaque here. -/
structure JItem where
  id : String
  payload : String
deriving DecidableEq

/-- `JsonStore._load`: `json.load` with no exception handling — a missing
primary file raises `FileNotFoundError` and unparsable content raises
`JSONDecodeError`; both propagate.  (`_ensure_file` pre-creates the file at
construction time only.)  Input convention as in `load_tasks`. -/
def JsonStore_load (file : Option (Option (List JItem))) :
    Except PyErr (List JItem) :=
  match file with
  | none => .error .fileNotFound
  | some none => .error .jsonDecode
  | some (some items) => .ok items

/-- The in-memory change of `JsonStore.upsert` on `data["items"]`: replace
the first item whose `"id"` equals the new item's, else append. -/
def upsert : List JItem → JItem → List JItem
  | [], x => [x]
  | it :: rest, x => if it.id = x.id then x :: rest else it :: upsert rest x

/-- A flat filesystem: file name to content. -/
def FS : Type := String → Option String

/-- Creating/overwriting one file. -/
def fsWrite (fs : FS) (name text : String) : FS :=
  fun n => if n = name then some text else fs n

/-- `Path.replace`: atomic rename of `src` over `dst`. -/
def fsRename (fs : FS) (src dst : String) : FS :=
  fun n => if n = dst then fs src else if n = src then none else fs n

/-- The successive filesystem states of `JsonStore._save(data)`:
before; after writing the whole serialization to the `.tmp` sibling; after
`tmp.replace(self.file_path)`.  A crash at any point leaves one of these
states. -/
def jsonStore_save_states (fs : FS) (primary tmp text : String) : List FS :=
  [fs, fsWrite fs tmp text, fsRename (fsWrite fs tmp text) tmp primary]

/-- The successive filesystem states of `save_tasks(tasks)` in `tasks.py`:
before; after `open(TASKS_FILE, "w")` truncates the primary file in place;
after `json.dump` has written the serialization.  There is no temporary
file. -/
def save_tasks_states (fs : FS) (primary text : String) : List FS :=
  [fs, fsWrite fs primary "", fsWrite fs primary text]

/-- `JsonStore._save` with an injected filesystem fault: the source has no
`try`, so a raised `OSError` propagates to the caller. -/
def jsonStore_save_io (osFail : Bool) (fs : FS) (primary tmp text : String) :
    Except PyErr FS :=
  if osFail then .error .osError
  else .ok (fsRename (fsWrite fs tmp text) tmp primary)

/-- `save_task` with an injected filesystem fault on the `open`/`write`:
no handler in the source, so the `OSError` propagates. -/
def save_task_io (osFail : Bool) (vault : List MdFile)
    (title description : List Char) (task_id : Option Nat) (completed : Bool)
    (created_at : List Char) : Except PyErr (Nat × List MdFile) :=
  if osFail then .error .osError
  else .ok (save_task vault title description task_id completed created_at)

-- ---------------------------------------------------------------------------
-- studynavigator.py : task list sorting (task_list)
-- ---------------------------------------------------------------------------

/-- A task record of studynavigator (dataclass `Task`). -/
structure TaskS where
  id : String
  title : String
  status : String
  priority : Int
  due_date : Option String
  note_id : Option String
  created_at : String
  updated_at : String
deriving DecidableEq

/-- `order.get(t.status, 9)` with `order = {"todo": 0, "doing": 1, "done": 2}`. -/
def statusRank (s : String) : Nat :=
  if s = "todo" then 0 else if s = "doing" then 1 else if s = "done" then 2 else 9

/-- `t.due_date or "9999-99-99"`: Python `or` takes the sentinel for both
`None` and the falsy empty string. -/
def dueKey (t : TaskS) : String :=
  match t.due_date with
  | none => "9999-99-99"
  | some s => if s = "" then "9999-99-99" else s

/-- The sort key tuple of `task_list`:
`(order.get(t.status, 9), t.due_date or "9999-99-99", t.priority)`. -/
def taskKey (t : TaskS) : Nat × String × Int :=
  (statusRank t.status, dueKey t, t.priority)

/-- Strict lexicographic comparison of key tuples, as Python compares the
tuples. -/
def keyLt (x y : Nat × String × Int) : Bool :=
  x.1 < y.1 || (x.1 = y.1 && (x.2.1 < y.2.1 || (x.2.1 = y.2.1 && x.2.2 < y.2.2)))

/-- Reflexive lexicographic comparison of key tuples. -/
def keyLeB (x y : Nat × String × Int) : Bool :=
  x.1 < y.1 || (x.1 = y.1 && (x.2.1 < y.2.1 || (x.2.1 = y.2.1 && x.2.2 ≤ y.2.2)))

/-- `a` sorts strictly before `b` under `task_list`'s key. -/
def taskLt (a b : TaskS) : Bool := keyLt (taskKey a) (taskKey b)

/-- Insert `x` before the first element not strictly below it: the new
element goes after every earlier element with an equal key, which is
Python's stability guarantee. -/
def insertStable (x : TaskS) : List TaskS → List TaskS
  | [] => [x]
  | y :: ys => if taskLt y x then y :: insertStable x ys else x :: y :: ys

/-- `items.sort(key=lambda t: (order.get(t.status, 9), t.due_date or
"9999-99-99", t.priority))`: Python's list sort is a stable sort by the key;
modelled as a stable insertion sort by the same key. -/
def task_list_sort : List TaskS → List TaskS
  | [] => []
  | x :: xs => insertStable x (task_list_sort xs)

/-- The ordering stated by the specification: status rank ascending with
todo=0, doing=1, done=2, then due date ascending with unset dates last via a
far-future sentinel, then priority ascending.  (Defined from the spec's
words, for comparison with the code's key.) -/
def specLeB (a b : TaskS) : Bool :=
  let ra := if a.status = "todo" then 0 else if a.status = "doing" then 1 else 2
  let rb := if b.status = "todo" then 0 else if b.status = "doing" then 1 else 2
  ra < rb || (ra = rb && (dueKey a < dueKey b ||
    (dueKey a = dueKey b && a.priority ≤ b.priority)))

-- ---------------------------------------------------------------------------
-- Search (studynavigator.search and storage_markdown.search_tasks)
-- ---------------------------------------------------------------------------

/-- A note record of studynavigator (dataclass `Note`). -/
structure NoteR where
  id : String
  title : String
  body : String
  tags : List String
  created_at : String
  updated_at : String
deriving DecidableEq

/-- Python `needle in hay` for strings: contiguous substring test
(the empty needle is always contained). -/
def isInfixB (needle : List Char) : List Char → Bool
  | [] => needle.isEmpty
  | c :: rest => needle.isPrefixOf (c :: rest) || isInfixB needle rest

/-- Case-insensitive containment `needle.lower() in hay.lower()` over
`String`. -/
def pyInStr (needle hay : String) : Bool :=
  isInfixB (lowerChars needle.data) (lowerChars hay.data)

/-- `search` from studynavigator: one query, two independent filters — notes
match on title OR body, tasks on title only; the two result lists are
returned separately. -/
def search (query : String) (notes : List NoteR) (tasks : List TaskS) :
    List NoteR × List TaskS :=
  (notes.filter (fun n => pyInStr query n.title || pyInStr query n.body),
   tasks.filter (fun t => pyInStr query t.title))

/-- `search_tasks` from `storage_markdown.py`: filter the `list_tasks()`
records by case-insensitive keyword containment in title OR description. -/
def search_tasks (keyword : List Char) (tasks : List ParsedTask) :
    List ParsedTask :=
  tasks.filter (fun t =>
    isInfixB (lowerChars keyword) (lowerChars t.title) ||
    isInfixB (lowerChars keyword) (lowerChars t.description))

-- ---------------------------------------------------------------------------
-- Basic lemmas about the string primitives
-- ---------------------------------------------------------------------------

theorem escQuotes_eq_self {l : List Char} (h : ∀ c ∈ l, c ≠ '"') :
    escQuotes l = l := by
  induction l with
  | nil => rfl
  | cons c cs ih =>
    have hc : c ≠ '"' := h c (List.mem_cons_self _ _)
    simp [escQuotes, hc, ih fun d hd => h d (List.mem_cons_of_mem _ hd)]

theorem charOfNat_toNat {n : Nat} (h : n < 55296) : (Char.ofNat n).toNat = n := by
  have hv : n.isValidChar := Or.inl h
  rw [Char.ofNat, dif_pos hv]
  rfl

theorem dropWhile_eq_self_of_head {p : Char → Bool} {l : List Char}
    (h : ∀ c, l.head? = some c → p c = false) : l.dropWhile p = l := by
  cases l with
  | nil => rfl
  | cons a as => rw [List.dropWhile_cons, if_neg (by simp [h a rfl])]

theorem stripEnds_eq_self {p : Char → Bool} {l : List Char}
    (h1 : ∀ c, l.head? = some c → p c = false)
    (h2 : ∀ c, l.getLast? = some c → p c = false) :
    stripEnds p l = l := by
  unfold stripEnds
  rw [dropWhile_eq_self_of_head h1,
    dropWhile_eq_self_of_head (by intro c hc; apply h2; rwa [List.head?_reverse] at hc)]
  exact List.reverse_reverse l

theorem natDigitsF_congr :
    ∀ f1 f2 n, n < f1 → n < f2 → natDigitsF f1 n = natDigitsF f2 n := by
  intro f1
  induction f1 with
  | zero => intro f2 n h; omega
  | succ f ih =>
    intro f2 n h1 h2
    cases f2 with
    | zero => omega
    | succ g =>
      rw [natDigitsF, natDigitsF]
      by_cases h : n < 10
      · rw [if_pos h, if_pos h]
      · rw [if_neg h, if_neg h, ih g (n / 10) (by omega)
          (by have : n / 10 < n := Nat.div_lt_self (by omega) (by omega); omega)]

theorem natDigitsF_all_digit :
    ∀ fuel n, n < fuel → ∀ c ∈ natDigitsF fuel n, isDigitChar c = true := by
  intro fuel
  induction fuel with
  | zero => intro n h; omega
  | succ f ih =>
    intro n hn c hc
    rw [natDigitsF] at hc
    by_cases h : n < 10
    · rw [if_pos h] at hc
      simp at hc
      subst hc
      simp [isDigitChar, charOfNat_toNat (by omega : 48 + n < 55296)]
      omega
    · rw [if_neg h] at hc
      rcases List.mem_append.mp hc with h1 | h2
      · exact ih (n / 10)
          (by have : n / 10 < n := Nat.div_lt_self (by omega) (by omega); omega) c h1
      · simp at h2
        subst h2
        have h10 : n % 10 < 10 := Nat.mod_lt _ (by omega)
        simp [isDigitChar, charOfNat_toNat (by omega : 48 + n % 10 < 55296)]
        omega

theorem natDigits_all_digit (n : Nat) : ∀ c ∈ natDigits n, isDigitChar c = true :=
  natDigitsF_all_digit (n + 1) n (Nat.lt_succ_self n)

theorem natDigits_ne_nil (n : Nat) : natDigits n ≠ [] := by
  rw [natDigits, natDigitsF]
  by_cases h : n < 10
  · rw [if_pos h]; simp
  · rw [if_neg h]; simp

theorem digitChar_ne_hyphen {c : Char} (h : isDigitChar c = true) : c ≠ '-' := by
  intro he; subst he; exact absurd h (by decide)

theorem digitChar_not_break {c : Char} (h : isDigitChar c = true) :
    isLineBreak c = false := by
  simp [isDigitChar] at h
  simp [isLineBreak]
  omega

theorem digitChar_not_space {c : Char} (h : isDigitChar c = true) :
    isPySpace c = false := by
  simp [isDigitChar] at h
  simp [isPySpace]
  omega

theorem digitChar_ne_quote {c : Char} (h : isDigitChar c = true) : c ≠ '"' := by
  intro he; subst he; exact absurd h (by decide)

theorem digitsVal_append_digit (l : List Char) (c : Char) :
    digitsVal (l ++ [c]) = 10 * digitsVal l + (c.toNat - 48) := by
  simp [digitsVal, List.foldl_append]

theorem digitsVal_natDigitsF :
    ∀ fuel n, n < fuel → digitsVal (natDigitsF fuel n) = n := by
  intro fuel
  induction fuel with
  | zero => intro n h; omega
  | succ f ih =>
    intro n hn
    rw [natDigitsF]
    by_cases h : n < 10
    · rw [if_pos h]
      simp only [digitsVal, List.foldl_cons, List.foldl_nil,
        charOfNat_toNat (by omega : 48 + n < 55296)]
      omega
    · rw [if_neg h, digitsVal_append_digit,
        ih (n / 10)
          (by have : n / 10 < n := Nat.div_lt_self (by omega) (by omega); omega),
        charOfNat_toNat (by omega : 48 + n % 10 < 55296)]
      omega

theorem digitsVal_natDigits (n : Nat) : digitsVal (natDigits n) = n :=
  digitsVal_natDigitsF (n + 1) n (Nat.lt_succ_self n)

theorem natDigits_injective {m n : Nat} (h : natDigits m = natDigits n) : m = n := by
  have := digitsVal_natDigits m
  rw [h, digitsVal_natDigits] at this
  omega

theorem pyInt_natDigits (n : Nat) : pyInt (natDigits n) = some n := by
  have hne : natDigits n ≠ [] := natDigits_ne_nil n
  have hall := natDigits_all_digit n
  have hstrip : pyStrip (natDigits n) = natDigits n := by
    apply stripEnds_eq_self
    · intro c hc
      exact digitChar_not_space (hall c (List.mem_of_mem_head? (Option.mem_def.mpr hc)))
    · intro c hc
      exact digitChar_not_space (hall c (List.mem_of_getLast?_eq_some hc))
  have hemp : (natDigits n).isEmpty = false := by
    cases hl : natDigits n with
    | nil => exact absurd hl hne
    | cons a as => rfl
  have hallb : (natDigits n).all isDigitChar = true := List.all_eq_true.mpr hall
  simp [pyInt, hstrip, hemp, hallb, digitsVal_natDigits]

theorem takeWhile_append_of_all {p : Char → Bool} {l r : List Char}
    (hl : ∀ c ∈ l, p c = true) (hr : ∀ c, r.head? = some c → p c = false) :
    (l ++ r).takeWhile p = l ∧ (l ++ r).dropWhile p = r := by
  induction l with
  | nil =>
    simp only [List.nil_append]
    cases r with
    | nil => exact ⟨rfl, rfl⟩
    | cons c cs =>
      rw [List.takeWhile_cons, List.dropWhile_cons]
      have := hr c rfl
      simp [this]
  | cons a as ih =>
    have ha : p a = true := hl a (List.mem_cons_self _ _)
    have ih2 := ih (fun c hc => hl c (List.mem_cons_of_mem _ hc))
    simp [List.takeWhile_cons, List.dropWhile_cons, ha, ih2.1, ih2.2]

theorem extractId_append (n : Nat) (r : List Char) :
    extractId (natDigits n ++ '-' :: r) = some n := by
  have h := takeWhile_append_of_all (l := natDigits n) (r := '-' :: r)
    (natDigits_all_digit n)
    (by intro c hc; simp at hc; subst hc; decide)
  rw [extractId]
  cases hd : natDigits n with
  | nil => exact absurd hd (natDigits_ne_nil n)
  | cons a as =>
    rw [hd] at h
    simp only [h.1, h.2]
    simp only [reduceIte]
    rw [← hd, digitsVal_natDigits]

theorem hyphen_free_eq_of_isPre {a b r : List Char}
    (ha : ∀ c ∈ a, c ≠ '-') (hb : ∀ c ∈ b, c ≠ '-')
    (h : (a ++ ['-']).isPrefixOf (b ++ '-' :: r) = true) : a = b := by
  induction a generalizing b with
  | nil =>
    cases b with
    | nil => rfl
    | cons d ds =>
      exfalso
      simp only [List.nil_append, List.cons_append, List.isPrefixOf] at h
      have : '-' = d := by
        have := (Bool.and_eq_true _ _).mp h |>.1
        exact eq_of_beq this
      exact hb d (List.mem_cons_self _ _) this.symm
  | cons c cs ih =>
    cases b with
    | nil =>
      exfalso
      simp only [List.cons_append, List.nil_append, List.isPrefixOf] at h
      have : c = '-' := by
        have := (Bool.and_eq_true _ _).mp h |>.1
        exact eq_of_beq this
      exact ha c (List.mem_cons_self _ _) this
    | cons d ds =>
      simp only [List.cons_append, List.isPrefixOf] at h
      have h1 := (Bool.and_eq_true _ _).mp h
      have hcd : c = d := eq_of_beq h1.1
      have := ih (fun x hx => ha x (List.mem_cons_of_mem _ hx))
        (fun x hx => hb x (List.mem_cons_of_mem _ hx)) h1.2
      rw [hcd, this]

theorem idDash_not_pre_of_ne {i j : Nat} (hne : i ≠ j) (r : List Char) :
    (idDash i).isPrefixOf (natDigits j ++ '-' :: r) = false := by
  by_contra h
  rw [Bool.not_eq_false] at h
  apply hne
  apply natDigits_injective
  exact hyphen_free_eq_of_isPre
    (fun c hc => digitChar_ne_hyphen (natDigits_all_digit i c hc))
    (fun c hc => digitChar_ne_hyphen (natDigits_all_digit j c hc)) h

theorem le_foldl_nextIdStep (names : List (List Char)) (a : Nat) :
    a ≤ names.foldl nextIdStep a := by
  induction names generalizing a with
  | nil => exact Nat.le_refl a
  | cons n ns ih =>
    refine Nat.le_trans ?_ (ih (nextIdStep a n))
    rw [nextIdStep]
    cases extractId n with
    | none => exact Nat.le_refl a
    | some k => exact Nat.le_max_left a k

theorem extracted_le_foldl {names : List (List Char)} {name : List Char}
    {k : Nat} (hmem : name ∈ names) (hk : extractId name = some k) (a : Nat) :
    k ≤ names.foldl nextIdStep a := by
  induction names generalizing a with
  | nil => cases hmem
  | cons n ns ih =>
    rcases List.mem_cons.mp hmem with h | h
    · subst h
      refine Nat.le_trans ?_ (le_foldl_nextIdStep ns (nextIdStep a name))
      rw [nextIdStep, hk]
      exact Nat.le_max_right a k
    · exact ih h (nextIdStep a n)

theorem foldl_nextIdStep_cases (names : List (List Char)) (a : Nat) :
    names.foldl nextIdStep a = a ∨
      ∃ name ∈ names, extractId name = some (names.foldl nextIdStep a) := by
  induction names generalizing a with
  | nil => exact Or.inl rfl
  | cons n ns ih =>
    rw [List.foldl_cons]
    rcases ih (nextIdStep a n) with h | h
    · rw [h]
      cases hx : extractId n with
      | none =>
        left
        simp only [nextIdStep, hx]
      | some k =>
        rcases max_choice a k with hm | hm
        · left
          simp only [nextIdStep, hx]
          exact hm
        · right
          refine ⟨n, List.mem_cons_self _ _, ?_⟩
          have hs : nextIdStep a n = k := by
            simp only [nextIdStep, hx]
            exact hm
          rw [hs]
          exact hx
    · rcases h with ⟨name, hmem, hk⟩
      exact Or.inr ⟨name, List.mem_cons_of_mem _ hmem, hk⟩

theorem foldl_nextIdStep_none {names : List (List Char)}
    (h : ∀ name ∈ names, extractId name = none) (a : Nat) :
    names.foldl nextIdStep a = a := by
  induction names generalizing a with
  | nil => rfl
  | cons n ns ih =>
    rw [List.foldl_cons, nextIdStep, h n (List.mem_cons_self _ _)]
    exact ih (fun x hx => h x (List.mem_cons_of_mem _ hx)) a

theorem mem_mark_complete_of_no_match {i : Nat} {vault : List MdFile}
    {f : MdFile} (hf : f ∈ vault)
    (hm : (idDash i).isPrefixOf f.name = false) :
    f ∈ (mark_complete i vault).2 := by
  induction vault with
  | nil => cases hf
  | cons g gs ih =>
    by_cases hg : (idDash i).isPrefixOf g.name = true
    · simp only [mark_complete, hg, if_true]
      rcases List.mem_cons.mp hf with rfl | h
      · rw [hm] at hg; cases hg
      · exact List.mem_cons_of_mem _ h
    · rw [Bool.not_eq_true] at hg
      simp only [mark_complete, hg, Bool.false_eq_true, if_false]
      rcases List.mem_cons.mp hf with rfl | h
      · exact List.mem_cons_self _ _
      · exact List.mem_cons_of_mem _ (ih h)

theorem mem_delete_task_io_of_no_match {osFail : Bool} {i : Nat}
    {vault : List MdFile} {f : MdFile} (hf : f ∈ vault)
    (hm : (idDash i).isPrefixOf f.name = false) :
    f ∈ (delete_task_io osFail i vault).2 := by
  induction vault with
  | nil => cases hf
  | cons g gs ih =>
    by_cases hg : (idDash i).isPrefixOf g.name = true
    · simp only [delete_task_io, hg, if_true]
      rcases List.mem_cons.mp hf with rfl | h
      · rw [hm] at hg; cases hg
      · cases osFail with
        | false => simpa using h
        | true => simpa using Or.inr h
    · rw [Bool.not_eq_true] at hg
      simp only [delete_task_io, hg, Bool.false_eq_true, if_false]
      rcases List.mem_cons.mp hf with rfl | h
      · exact List.mem_cons_self _ _
      · exact List.mem_cons_of_mem _ (ih h)

/-- C4: for distinct ids `i ≠ j`, `mark_complete(i)` and `delete_task(i)`
test filenames with `startswith(f"{i}-")`; a file named `f"{j}-..."` never
matches that pattern — even when the decimal string of `i` is a proper
prefix of that of `j`, e.g. `i = 1`, `j = 10` — so both operations leave
`j`'s file in the vault untouched. -/
theorem mark_delete_match_exact (i j : Nat) (hne : i ≠ j) (rest : List Char)
    (vault : List MdFile) (f : MdFile) (hf : f ∈ vault)
    (hname : f.name = natDigits j ++ '-' :: rest) :
    (idDash i).isPrefixOf f.name = false ∧
      f ∈ (mark_complete i vault).2 ∧ f ∈ (delete_task i vault).2 := by
  have hno : (idDash i).isPrefixOf f.name = false := by
    rw [hname]
    exact idDash_not_pre_of_ne hne rest
  exact ⟨hno, mem_mark_complete_of_no_match hf hno,
    mem_delete_task_io_of_no_match hf hno⟩

/-- Witness for C4 at `i = 1`, `j = 10`: task 10's file survives
`mark_complete 1` and `delete_task 1` with its content intact. -/
theorem mark_delete_match_exact_witness :
    (⟨"10-foo.md".data, "x".data⟩ : MdFile) ∈
        (mark_complete 1 [⟨"1-a.md".data, "y".data⟩,
          ⟨"10-foo.md".data, "x".data⟩]).2 ∧
      (⟨"10-foo.md".data, "x".data⟩ : MdFile) ∈
        (delete_task 1 [⟨"1-a.md".data, "y".data⟩,
          ⟨"10-foo.md".data, "x".data⟩]).2 := by
  have h := mark_delete_match_exact 1 10 (by decide) "foo.md".data
    [⟨"1-a.md".data, "y".data⟩, ⟨"10-foo.md".data, "x".data⟩]
    ⟨"10-foo.md".data, "x".data⟩ (by decide) (by decide)
  exact ⟨h.2.1, h.2.2⟩

theorem le_foldl_maxId (ts : List TaskJ) (a : Nat) :
    a ≤ ts.foldl (fun m x => max m x.id) a := by
  induction ts generalizing a with
  | nil => exact Nat.le_refl a
  | cons t ts ih =>
    exact Nat.le_trans (Nat.le_max_left a t.id) (ih (max a t.id))

theorem mem_le_foldl_maxId {ts : List TaskJ} {t : TaskJ} (ht : t ∈ ts)
    (a : Nat) : t.id ≤ ts.foldl (fun m x => max m x.id) a := by
  induction ts generalizing a with
  | nil => cases ht
  | cons u us ih =>
    rcases List.mem_cons.mp ht with rfl | h
    · exact Nat.le_trans (Nat.le_max_right a t.id) (le_foldl_maxId us _)
    · exact ih h (max a u.id)

/-- C7: `_next_id` returns one greater than the maximum leading integer
(digits before the first hyphen) over the vault's filenames: every id
extracted from a filename is strictly below it; it is 1 when no filename
matches the pattern; and it is either 1 or the successor of an id actually
present, so after creating tasks 1, 2, 3 and deleting task 2 the next id is
4 — neither reused from the deleted task nor colliding with a survivor.
`generate_id` of `tasks.py` likewise exceeds every stored id. -/
theorem next_id_spec (names : List (List Char)) (tasks : List TaskJ) :
    (∀ name ∈ names, ∀ k, extractId name = some k → k < next_id names) ∧
      ((∀ name ∈ names, extractId name = none) → next_id names = 1) ∧
      (next_id names = 1 ∨
        ∃ name ∈ names, extractId name = some (next_id names - 1)) ∧
      (∀ t ∈ tasks, t.id < generate_id tasks) := by
  refine ⟨?_, ?_, ?_, ?_⟩
  · intro name hmem k hk
    have := extracted_le_foldl hmem hk 0
    rw [next_id]
    omega
  · intro h
    rw [next_id, foldl_nextIdStep_none h 0]
  · rcases foldl_nextIdStep_cases names 0 with h | h
    · left; rw [next_id, h]
    · right
      rcases h with ⟨name, hmem, hk⟩
      exact ⟨name, hmem, by rw [next_id, Nat.add_sub_cancel]; exact hk⟩
  · intro t ht
    cases tasks with
    | nil => cases ht
    | cons u us =>
      rw [generate_id]
      rcases List.mem_cons.mp ht with rfl | h
      · have := le_foldl_maxId us t.id; omega
      · have := mem_le_foldl_maxId h u.id; omega

/-- Witness for C7: with files `1-a.md` and `3-c.md` (task 2 deleted), the
next id is 4, and 3 is strictly below it. -/
theorem next_id_spec_witness :
    next_id ["1-a.md".data, "3-c.md".data] = 4 ∧
      3 < next_id ["1-a.md".data, "3-c.md".data] := by
  refine ⟨by decide, ?_⟩
  exact (next_id_spec ["1-a.md".data, "3-c.md".data] []).1 "3-c.md".data
    (by decide) 3 (by decide)

/-- Counterexample to C2 as stated: `save_tasks` in `tasks.py` — the writer
behind the `add` and `complete` mutations of that JSON backend — opens the
primary file with mode `"w"`, which truncates it in place before `json.dump`
writes.  The crash state after the truncation holds neither the old nor the
new collection: the file is empty. -/
theorem save_tasks_not_atomic_cex :
    ∃ s ∈ save_tasks_states
        (fsWrite (fun _ => none) "tasks.json" "[OLD]") "tasks.json" "[NEW]",
      s "tasks.json" ≠ some "[OLD]" ∧ s "tasks.json" ≠ some "[NEW]" := by
  refine ⟨fsWrite (fsWrite (fun _ => none) "tasks.json" "[OLD]")
    "tasks.json" "", ?_, ?_, ?_⟩
  · exact List.mem_cons_of_mem _ (List.mem_cons_self _ _)
  · simp [fsWrite]
  · simp [fsWrite]

/-- C2 (amended): `JsonStore._save` — the writer behind `upsert` and
`replace_all` of studynavigator's JSON backend — writes the whole new
serialization to the `.tmp` sibling and then renames it over the primary, so
the state before the rename still maps the primary to its old content, the
state after maps it to the complete new content, and every intermediate
state shows one of the two; `save_tasks` of `tasks.py` (see the
counterexample) lacks this protection. -/
theorem jsonStore_save_atomic (fs : FS) (primary tmp text : String)
    (hne : tmp ≠ primary) :
    fsWrite fs tmp text primary = fs primary ∧
      fsRename (fsWrite fs tmp text) tmp primary primary = some text ∧
      ∀ s ∈ jsonStore_save_states fs primary tmp text,
        s primary = fs primary ∨ s primary = some text := by
  have h1 : fsWrite fs tmp text primary = fs primary := by
    rw [fsWrite, if_neg (fun h => hne h.symm)]
  have h2 : fsRename (fsWrite fs tmp text) tmp primary primary = some text := by
    rw [fsRename, if_pos rfl, fsWrite, if_pos rfl]
  refine ⟨h1, h2, ?_⟩
  intro s hs
  rcases List.mem_cons.mp hs with rfl | hs
  · exact Or.inl rfl
  rcases List.mem_cons.mp hs with rfl | hs
  · exact Or.inl h1
  rcases List.mem_cons.mp hs with rfl | hs
  · exact Or.inr h2
  · cases hs

/-- Witness for C2 (amended) on concrete names: with `tmp = "tasks.tmp"` and
`primary = "tasks.json"`, the pre-rename state still reads the old bytes and
the final state reads the new ones. -/
theorem jsonStore_save_atomic_witness :
    fsWrite (fsWrite (fun _ => none) "tasks.json" "[OLD]") "tasks.tmp" "[NEW]"
        "tasks.json" =
      fsWrite (fun _ => none) "tasks.json" "[OLD]" "tasks.json" ∧
      fsRename (fsWrite (fsWrite (fun _ => none) "tasks.json" "[OLD]")
          "tasks.tmp" "[NEW]") "tasks.tmp" "tasks.json" "tasks.json" =
        some "[NEW]" := by
  have h := jsonStore_save_atomic (fsWrite (fun _ => none) "tasks.json" "[OLD]")
    "tasks.json" "tasks.tmp" "[NEW]" (by decide)
  exact ⟨h.1, h.2.1⟩

/-- C8 (amended): `load_tasks` of `tasks.py` returns the empty list when the
file is missing and when `json.load` raises `JSONDecodeError`, and the
parsed list otherwise — it never raises.  (`JsonStore._load` does not share
this behaviour; see the counterexample.) -/
theorem load_tasks_total (ts : List TaskJ) :
    load_tasks none = [] ∧ load_tasks (some none) = [] ∧
      load_tasks (some (some ts)) = ts :=
  ⟨rfl, rfl, rfl⟩

/-- Counterexample to C8 as stated: `JsonStore._load` of studynavigator has
no exception handler, so on a primary file whose contents fail to parse it
raises `JSONDecodeError` instead of returning the empty collection (and on a
missing file it raises `FileNotFoundError`). -/
theorem jsonStore_load_raises_cex :
    JsonStore_load (some none) = .error PyErr.jsonDecode ∧
      JsonStore_load (some none) ≠ .ok [] ∧
      JsonStore_load none = .error PyErr.fileNotFound :=
  ⟨rfl, (by intro h; cases h), rfl⟩

/-- Counterexample to C9 as stated: `delete_task` wraps `os.remove` in
`except OSError: return False` — with the target file present, a filesystem
failure yields `(False, vault unchanged)`, exactly the observable result of
a not-found id (compare id 7, absent), instead of a distinct fatal error. -/
theorem delete_task_swallows_oserror_cex :
    delete_task_io true 1 [⟨"1-a.md".data, "x".data⟩] =
        (false, [⟨"1-a.md".data, "x".data⟩]) ∧
      delete_task_io false 7 [⟨"1-a.md".data, "x".data⟩] =
        (false, [⟨"1-a.md".data, "x".data⟩]) := by decide

/-- C9 (amended): `save_task` and `JsonStore._save` contain no exception
handler, so an `OSError` raised during their writes propagates to the caller
as a distinct fatal error; only `delete_task` converts the failure into the
ordinary `False` result (it returns `True` for the same input without the
fault). -/
theorem write_failure_handling (vault : List MdFile) (fs : FS)
    (primary tmp text : String) (title description created_at : List Char)
    (task_id : Option Nat) (completed : Bool) (i : Nat) (f : MdFile)
    (rest : List MdFile) (hmatch : (idDash i).isPrefixOf f.name = true) :
    save_task_io true vault title description task_id completed created_at =
        .error PyErr.osError ∧
      jsonStore_save_io true fs primary tmp text = .error PyErr.osError ∧
      delete_task_io true i (f :: rest) = (false, f :: rest) ∧
      delete_task_io false i (f :: rest) = (true, rest) := by
  refine ⟨rfl, rfl, ?_, ?_⟩
  · simp [delete_task_io, hmatch]
  · simp [delete_task_io, hmatch]

/-- Witness for C9 (amended) at task id 1 and its file `1-a.md`. -/
theorem write_failure_handling_witness :
    save_task_io true [] "t".data "".data none false "".data =
        .error PyErr.osError ∧
      delete_task_io true 1 [⟨"1-a.md".data, "x".data⟩] =
        (false, [⟨"1-a.md".data, "x".data⟩]) ∧
      delete_task_io false 1 [⟨"1-a.md".data, "x".data⟩] = (true, []) := by
  have h := write_failure_handling [] (fun _ => none) "p" "t" "x" "t".data
    "".data "".data none false 1 ⟨"1-a.md".data, "x".data⟩ [] (by decide)
  exact ⟨h.1, h.2.2.1, h.2.2.2⟩

theorem upsert_of_not_mem {items : List JItem} {x : JItem}
    (h : x.id ∉ items.map JItem.id) : upsert items x = items ++ [x] := by
  induction items with
  | nil => rfl
  | cons it rest ih =>
    have hne : it.id ≠ x.id := by
      intro he
      exact h (by rw [← he]; exact List.mem_cons_self _ _)
    rw [upsert, if_neg hne, ih (fun hm => h (List.mem_cons_of_mem _ hm)),
      List.cons_append]

theorem upsert_of_mem {items : List JItem} {x : JItem}
    (hmem : x.id ∈ items.map JItem.id) (hd : (items.map JItem.id).Nodup) :
    upsert items x = items.map fun it => if it.id = x.id then x else it := by
  induction items with
  | nil => cases hmem
  | cons it rest ih =>
    rw [List.map_cons] at hd
    have hd1 := (List.nodup_cons.mp hd).1
    have hd2 := (List.nodup_cons.mp hd).2
    by_cases he : it.id = x.id
    · rw [upsert, if_pos he, List.map_cons, if_pos he]
      congr 1
      have : ∀ it2 ∈ rest, (if it2.id = x.id then x else it2) = it2 := by
        intro it2 h2
        rw [if_neg]
        intro he2
        exact hd1 (by rw [he, ← he2]; exact List.mem_map_of_mem _ h2)
      rw [List.map_congr_left this]
      simp
    · have hmem2 : x.id ∈ rest.map JItem.id := by
        rcases List.mem_cons.mp hmem with h | h
        · exact absurd h.symm he
        · exact h
      rw [upsert, if_neg he, List.map_cons, if_neg he, ih hmem2 hd2]

theorem upsert_map_id_of_mem {items : List JItem} {x : JItem}
    (hmem : x.id ∈ items.map JItem.id) (hd : (items.map JItem.id).Nodup) :
    (upsert items x).map JItem.id = items.map JItem.id := by
  rw [upsert_of_mem hmem hd, List.map_map]
  apply List.map_congr_left
  intro it hit
  by_cases he : it.id = x.id
  · simp [Function.comp, he]
  · simp [Function.comp, he]

theorem upsert_nodup {items : List JItem} {x : JItem}
    (hd : (items.map JItem.id).Nodup) :
    ((upsert items x).map JItem.id).Nodup := by
  by_cases hmem : x.id ∈ items.map JItem.id
  · rw [upsert_map_id_of_mem hmem hd]
    exact hd
  · rw [upsert_of_not_mem hmem, List.map_append]
    refine List.Nodup.append hd (List.nodup_singleton _) ?_
    intro a ha hb
    simp at hb
    subst hb
    exact hmem ha

theorem mem_upsert_of_ne {items : List JItem} {x it : JItem}
    (hit : it ∈ items) (hne : it.id ≠ x.id) : it ∈ upsert items x := by
  induction items with
  | nil => cases hit
  | cons g rest ih =>
    by_cases hg : g.id = x.id
    · rw [upsert, if_pos hg]
      rcases List.mem_cons.mp hit with rfl | h
      · exact absurd hg hne
      · exact List.mem_cons_of_mem _ h
    · rw [upsert, if_neg hg]
      rcases List.mem_cons.mp hit with rfl | h
      · exact List.mem_cons_self _ _
      · exact List.mem_cons_of_mem _ (ih h)

theorem save_task_fresh (vault : List MdFile) (tid : Nat) (htid : tid ≠ 0)
    (hfresh : ∀ name ∈ vault.map MdFile.name, extractId name ≠ some tid)
    (hids : (vaultIds vault).Nodup)
    (title description created_at : List Char) (completed : Bool) :
    vaultIds (save_task vault title description (some tid) completed
        created_at).2 = vaultIds vault ++ [tid] ∧
      (vaultIds (save_task vault title description (some tid) completed
        created_at).2).Nodup := by
  have hext : extractId (taskFilename tid title) = some tid := by
    rw [taskFilename]
    exact extractId_append tid _
  have hnot : taskFilename tid title ∉ vault.map MdFile.name := by
    intro hmem
    exact hfresh _ hmem hext
  have hany : (vault.any fun f => f.name = taskFilename tid title) = false := by
    rw [Bool.eq_false_iff]
    intro hany
    rcases List.any_eq_true.mp hany with ⟨f, hf, he⟩
    rw [decide_eq_true_eq] at he
    exact hnot (he ▸ List.mem_map_of_mem _ hf)
  have hch : chooseTid vault (some tid) = tid := by
    rw [chooseTid]
    exact if_neg htid
  have heq : (save_task vault title description (some tid) completed
      created_at).2 = vault ++ [⟨taskFilename tid title,
        saveContent tid title description completed created_at⟩] := by
    rw [save_task]
    simp only [hch]
    rw [vaultWrite, if_neg (by rw [hany]; intro h; cases h)]
  have hids2 : vaultIds (save_task vault title description (some tid)
      completed created_at).2 = vaultIds vault ++ [tid] := by
    rw [heq, vaultIds, List.map_append, List.filterMap_append]
    congr 1
    simp [vaultIds, hext]
  refine ⟨hids2, ?_⟩
  rw [hids2]
  refine List.Nodup.append hids (List.nodup_singleton _) ?_
  intro a ha hb
  simp at hb
  subst hb
  rcases List.mem_filterMap.mp ha with ⟨name, hname, hid⟩
  exact hfresh name hname hid

/-- Counterexample to C3 as stated: with `5-alpha.md` already on disk,
`save_task("Beta", task_id=5)` derives the filename from the new title's
slug, writes `5-beta.md`, and leaves two files both carrying id 5. -/
theorem save_task_duplicate_id_cex :
    vaultIds (save_task [⟨"5-alpha.md".data, "c".data⟩] "Beta".data "".data
        (some 5) false "t".data).2 = [5, 5] ∧
      ¬ (vaultIds (save_task [⟨"5-alpha.md".data, "c".data⟩] "Beta".data
        "".data (some 5) false "t".data).2).Nodup := by decide

/-- C3 (amended): `JsonStore.upsert` matches by exact identifier equality —
on a duplicate-free collection it keeps identifiers pairwise distinct,
appends when no identifier matches, rewrites exactly the matching position
when one does, and never displaces a record with a different identifier.
For the Markdown backend, `save_task` preserves filename-id uniqueness when
the saved id is fresh (no existing file carries it); saving an *existing* id
under a title with a different slug creates a second file with that id (see
the counterexample). -/
theorem upsert_identifier_uniqueness (items : List JItem) (x : JItem)
    (hd : (items.map JItem.id).Nodup)
    (vault : List MdFile) (tid : Nat) (htid : tid ≠ 0)
    (hfresh : ∀ name ∈ vault.map MdFile.name, extractId name ≠ some tid)
    (hids : (vaultIds vault).Nodup)
    (title description created_at : List Char) (completed : Bool) :
    ((upsert items x).map JItem.id).Nodup ∧
      (x.id ∉ items.map JItem.id → upsert items x = items ++ [x]) ∧
      (x.id ∈ items.map JItem.id →
        upsert items x = items.map fun it => if it.id = x.id then x else it) ∧
      (∀ it ∈ items, it.id ≠ x.id → it ∈ upsert items x) ∧
      (vaultIds (save_task vault title description (some tid) completed
        created_at).2).Nodup :=
  ⟨upsert_nodup hd,
   fun h => upsert_of_not_mem h,
   fun h => upsert_of_mem h hd,
   fun _ hit hne => mem_upsert_of_ne hit hne,
   (save_task_fresh vault tid htid hfresh hids title description created_at
     completed).2⟩

/-- Witness for C3 (amended): upsert of a fresh id appends and keeps ids
distinct; a fresh-id Markdown save keeps filename ids distinct. -/
theorem upsert_identifier_uniqueness_witness :
    ((upsert [⟨"a", "p"⟩] ⟨"b", "q"⟩).map JItem.id).Nodup ∧
      upsert [⟨"a", "p"⟩] ⟨"b", "q"⟩ = [⟨"a", "p"⟩, ⟨"b", "q"⟩] ∧
      (vaultIds (save_task [⟨"1-a.md".data, "c".data⟩] "T".data "".data
        (some 2) false "".data).2).Nodup := by
  have h := upsert_identifier_uniqueness [⟨"a", "p"⟩] ⟨"b", "q"⟩ (by decide)
    [⟨"1-a.md".data, "c".data⟩] 2 (by decide) (by decide) (by decide)
    "T".data "".data "".data false
  exact ⟨h.1, h.2.1 (by decide), h.2.2.2.2⟩

/-- Counterexample to C6 as stated: the Markdown backend's `search_tasks`
returns a task whose description — not title — contains the query, so a
task is not returned only-iff the query occurs in its title. -/
theorem search_tasks_matches_description_cex :
    search_tasks "dp".data
        [⟨1, "unrelated".data, "DP".data, false, "".data⟩] =
      [⟨1, "unrelated".data, "DP".data, false, "".data⟩] ∧
      isInfixB (lowerChars "dp".data) (lowerChars "unrelated".data) = false := by
  decide

/-- C6 (amended): studynavigator's `search` returns two independent
sequences — notes filtered by case-insensitive substring match on title OR
body, tasks filtered on title only; the Markdown backend's `search_tasks`
(tasks only) matches on title OR description. -/
theorem search_spec (q : String) (notes : List NoteR) (tasks : List TaskS)
    (kw : List Char) (mdtasks : List ParsedTask) (n : NoteR) (t : TaskS)
    (mt : ParsedTask) :
    (n ∈ (search q notes tasks).1 ↔
        n ∈ notes ∧ (pyInStr q n.title || pyInStr q n.body) = true) ∧
      (t ∈ (search q notes tasks).2 ↔ t ∈ tasks ∧ pyInStr q t.title = true) ∧
      (mt ∈ search_tasks kw mdtasks ↔ mt ∈ mdtasks ∧
        (isInfixB (lowerChars kw) (lowerChars mt.title) ||
          isInfixB (lowerChars kw) (lowerChars mt.description)) = true) := by
  refine ⟨?_, ?_, ?_⟩
  · rw [search]
    exact List.mem_filter
  · rw [search]
    exact List.mem_filter
  · rw [search_tasks]
    exact List.mem_filter

theorem splitlinesAux_line {l : List Char}
    (h : ∀ c ∈ l, isLineBreak c = false) :
    ∀ acc rest, splitlinesAux acc (l ++ '\n' :: rest) =
      (acc.reverse ++ l) :: splitlinesAux [] rest := by
  induction l with
  | nil =>
    intro acc rest
    rw [List.nil_append,
      splitlinesAux.eq_3 acc '\n' rest (by intro r1 hc _; cases hc),
      if_pos (by decide)]
    simp
  | cons c cs ih =>
    intro acc rest
    have hc : isLineBreak c = false := h c (List.mem_cons_self _ _)
    have hcr : c ≠ '\r' := by
      intro he; subst he; exact absurd hc (by decide)
    rw [List.cons_append,
      splitlinesAux.eq_3 acc c _ (fun r1 hce _ => hcr hce)]
    simp only [hc, Bool.false_eq_true, if_false]
    rw [ih (fun d hd => h d (List.mem_cons_of_mem _ hd)) (c :: acc) rest]
    simp

theorem splitlinesAux_last {l : List Char}
    (h : ∀ c ∈ l, isLineBreak c = false) :
    ∀ acc, splitlinesAux acc l =
      if (acc.reverse ++ l).isEmpty then [] else [acc.reverse ++ l] := by
  induction l with
  | nil =>
    intro acc
    rw [splitlinesAux.eq_1]
    simp
  | cons c cs ih =>
    intro acc
    have hc : isLineBreak c = false := h c (List.mem_cons_self _ _)
    have hcr : c ≠ '\r' := by
      intro he; subst he; exact absurd hc (by decide)
    rw [splitlinesAux.eq_3 acc c _ (fun r1 hce _ => hcr hce)]
    simp only [hc, Bool.false_eq_true, if_false]
    rw [ih (fun d hd => h d (List.mem_cons_of_mem _ hd)) (c :: acc)]
    have h1 : ((c :: acc).reverse ++ cs).isEmpty = false := by
      simp [List.isEmpty_iff]
    have h2 : (acc.reverse ++ c :: cs).isEmpty = false := by
      simp [List.isEmpty_iff]
    rw [h1, h2]
    simp

theorem joinNL_cons_cons (l l2 : List Char) (rest : List (List Char)) :
    joinNL (l :: l2 :: rest) = l ++ '\n' :: joinNL (l2 :: rest) := rfl

theorem pySplitlines_joinNL {ls : List (List Char)} (hne : ls ≠ [])
    (h : ∀ l ∈ ls, ∀ c ∈ l, isLineBreak c = false) :
    pySplitlines (joinNL ls) =
      if ls.getLast? = some [] then ls.dropLast else ls := by
  induction ls with
  | nil => exact absurd rfl hne
  | cons l rest ih =>
    cases rest with
    | nil =>
      rw [joinNL, pySplitlines,
        splitlinesAux_last (h l (List.mem_cons_self _ _)) []]
      by_cases hl : l = []
      · subst hl; simp
      · simp [hl, List.isEmpty_iff]
    | cons l2 rest2 =>
      rw [joinNL_cons_cons, pySplitlines,
        splitlinesAux_line (h l (List.mem_cons_self _ _)) [] _]
      have ih2 := ih (List.cons_ne_nil _ _)
        (fun x hx => h x (List.mem_cons_of_mem _ hx))
      rw [pySplitlines] at ih2
      simp only [List.reverse_nil, List.nil_append, ih2]
      by_cases hlast : (l2 :: rest2).getLast? = some []
      · rw [if_pos hlast, if_pos (by rwa [List.getLast?_cons_cons])]
        exact (List.dropLast_cons_of_ne_nil (List.cons_ne_nil _ _)).symm
      · rw [if_neg hlast, if_neg (by rwa [List.getLast?_cons_cons])]

theorem mcRest_false (ls : List (List Char)) : mcRest false ls = ls := by
  induction ls with
  | nil => rfl
  | cons l rest ih => rw [mcRest]; simp [ih]

theorem mcRest_true_skip {ls : List (List Char)} {l : List Char}
    (h1 : ("completed:".data.isPrefixOf (pyStrip l)) = false)
    (h2 : pyStrip l ≠ "---".data) :
    mcRest true (l :: ls) = l :: mcRest true ls := by
  rw [mcRest]
  simp [h1, h2]

theorem mcRest_true_skip_all {pre ls : List (List Char)}
    (h : ∀ l ∈ pre, ("completed:".data.isPrefixOf (pyStrip l)) = false ∧
      pyStrip l ≠ "---".data) :
    mcRest true (pre ++ ls) = pre ++ mcRest true ls := by
  induction pre with
  | nil => rfl
  | cons p ps ih =>
    have hp := h p (List.mem_cons_self _ _)
    rw [List.cons_append, mcRest_true_skip hp.1 hp.2,
      ih (fun x hx => h x (List.mem_cons_of_mem _ hx)), List.cons_append]

theorem mcRest_true_completed {ls : List (List Char)} {cl : List Char}
    (hcl : ("completed:".data.isPrefixOf (pyStrip cl)) = true) :
    mcRest true (cl :: ls) = "completed: true".data :: mcRest true ls := by
  rw [mcRest]
  simp [hcl]

theorem mcRest_true_close (ls : List (List Char)) :
    mcRest true ("---".data :: ls) = "---".data :: ls := by
  rw [mcRest]
  have h1 : ("completed:".data.isPrefixOf (pyStrip "---".data)) = false := by
    decide
  have h2 : (pyStrip "---".data == "---".data) = true := by decide
  simp [h1, h2, mcRest_false]

theorem mark_complete_no_match {i : Nat} {vault : List MdFile}
    (h : ∀ f ∈ vault, (idDash i).isPrefixOf f.name = false) :
    mark_complete i vault = (false, vault) := by
  induction vault with
  | nil => rfl
  | cons f fs ih =>
    rw [mark_complete]
    have hf := h f (List.mem_cons_self _ _)
    rw [hf]
    simp only [Bool.false_eq_true, if_false]
    rw [ih (fun g hg => h g (List.mem_cons_of_mem _ hg))]

/-- Counterexample to C10 as stated: on a file whose content ends in a
newline, `mark_complete` does not leave the body bytes unchanged —
`splitlines` drops the final empty line and `"\n".join` does not restore the
trailing newline, so the rewritten file differs from the claimed
only-the-completed-line rewrite by its final byte. -/
theorem mark_complete_not_byte_preserving_cex :
    markCompleteContent "---\ncompleted: false\n---\nbody\n".data =
        "---\ncompleted: true\n---\nbody".data ∧
      markCompleteContent "---\ncompleted: false\n---\nbody\n".data ≠
        "---\ncompleted: true\n---\nbody\n".data := by decide

/-- C10 (amended): on a file whose content is the `\n`-join of lines with no
trailing newline, opening with a `---` delimiter line, with exactly one
`completed:`-prefixed line in the frontmatter, `mark_complete` rewrites
exactly that line to `completed: true` and reproduces every other line
byte-for-byte — the delimiters, the other frontmatter lines, and the entire
body after the closing delimiter, including body lines that themselves start
with `completed:`.  When no filename matches the id, it returns `False` and
the vault is unchanged.  (A trailing newline is not preserved: see the
counterexample.) -/
theorem mark_complete_frame (pre post body : List (List Char)) (cl : List Char)
    (hpre : ∀ l ∈ pre, ("completed:".data.isPrefixOf (pyStrip l)) = false ∧
      pyStrip l ≠ "---".data)
    (hpost : ∀ l ∈ post, ("completed:".data.isPrefixOf (pyStrip l)) = false ∧
      pyStrip l ≠ "---".data)
    (hcl : ("completed:".data.isPrefixOf (pyStrip cl)) = true)
    (hnb : ∀ l ∈ "---".data :: pre ++ cl :: post ++ "---".data :: body,
      ∀ c ∈ l, isLineBreak c = false)
    (hlast : body.getLast? ≠ some [])
    (i : Nat) (vault : List MdFile)
    (hnomatch : ∀ f ∈ vault, (idDash i).isPrefixOf f.name = false) :
    markCompleteContent
        (joinNL ("---".data :: pre ++ cl :: post ++ "---".data :: body)) =
      joinNL ("---".data :: pre ++ "completed: true".data :: post ++
        "---".data :: body) ∧
      mark_complete i vault = (false, vault) := by
  refine ⟨?_, mark_complete_no_match hnomatch⟩
  have hlines : ("---".data :: pre ++ cl :: post ++ "---".data :: body) =
      ("---".data :: (pre ++ cl :: post)) ++ ("---".data :: body) := by
    simp
  have hlast2 : ("---".data :: pre ++ cl :: post ++ "---".data ::
      body).getLast? ≠ some [] := by
    rw [hlines,
      List.getLast?_append_of_ne_nil _ (List.cons_ne_nil _ _)]
    cases body with
    | nil => intro hc; rw [List.getLast?_singleton] at hc; cases hc
    | cons b bs =>
      rwa [List.getLast?_cons_cons]
  have hsplit := @pySplitlines_joinNL
    ("---".data :: pre ++ cl :: post ++ "---".data :: body)
    (List.cons_ne_nil _ _) hnb
  rw [if_neg hlast2] at hsplit
  rw [markCompleteContent, hsplit, mcLines.eq_def]
  simp only [List.cons_append]
  rw [if_pos (by decide : pyStrip "---".data = "---".data)]
  congr 2
  have e1 : mcRest true (pre ++ (cl :: (post ++ ("---".data :: body)))) =
      pre ++ mcRest true (cl :: (post ++ ("---".data :: body))) :=
    mcRest_true_skip_all hpre
  have e2 : mcRest true (cl :: (post ++ ("---".data :: body))) =
      "completed: true".data :: mcRest true (post ++ ("---".data :: body)) :=
    mcRest_true_completed hcl
  have e3 : mcRest true (post ++ ("---".data :: body)) =
      post ++ mcRest true ("---".data :: body) :=
    mcRest_true_skip_all hpost
  have e4 := mcRest_true_close body
  simp only [List.cons_append, List.append_assoc]
  rw [e1, e2, e3, e4]

/-- Witness for C10 (amended) on a concrete file shaped like `save_task`
output, with a body line that itself starts with `completed:`, and a
no-match call on a one-file vault. -/
theorem mark_complete_frame_witness :
    markCompleteContent
        (joinNL ["---".data, "id: 1".data, "completed: false".data,
          "---".data, "".data, "# t".data, "completed: nope".data]) =
      joinNL ["---".data, "id: 1".data, "completed: true".data,
        "---".data, "".data, "# t".data, "completed: nope".data] ∧
      mark_complete 2 [⟨"1-a.md".data, "x".data⟩] =
        (false, [⟨"1-a.md".data, "x".data⟩]) := by
  have h := mark_complete_frame ["id: 1".data] []
    ["".data, "# t".data, "completed: nope".data] "completed: false".data
    (by decide) (by decide) (by decide) (by decide) (by decide)
    2 [⟨"1-a.md".data, "x".data⟩] (by decide)
  exact ⟨h.1, h.2⟩

theorem keyLt_iff (x y : Nat × String × Int) :
    keyLt x y = true ↔ x.1 < y.1 ∨ (x.1 = y.1 ∧ (x.2.1 < y.2.1 ∨
      (x.2.1 = y.2.1 ∧ x.2.2 < y.2.2))) := by
  simp [keyLt]

theorem keyLt_false_iff (x y : Nat × String × Int) :
    keyLt x y = false ↔ ¬ (x.1 < y.1 ∨ (x.1 = y.1 ∧ (x.2.1 < y.2.1 ∨
      (x.2.1 = y.2.1 ∧ x.2.2 < y.2.2)))) := by
  rw [← Bool.not_eq_true, keyLt_iff]

theorem keyLeB_iff (x y : Nat × String × Int) :
    keyLeB x y = true ↔ x.1 < y.1 ∨ (x.1 = y.1 ∧ (x.2.1 < y.2.1 ∨
      (x.2.1 = y.2.1 ∧ x.2.2 ≤ y.2.2))) := by
  simp [keyLeB]

theorem keyLt_irrefl (x : Nat × String × Int) : keyLt x x = false := by
  rw [keyLt_false_iff]
  intro h
  rcases h with h | ⟨_, h | ⟨_, h⟩⟩ <;> exact absurd h (lt_irrefl _)

theorem keyLt_asymm {x y : Nat × String × Int} (h : keyLt x y = true) :
    keyLt y x = false := by
  rw [keyLt_iff] at h
  rw [keyLt_false_iff]
  intro h2
  rcases h with h1 | ⟨he1, h1⟩
  · rcases h2 with h2 | ⟨he2, _⟩
    · exact absurd h2 (lt_asymm h1)
    · rw [he2] at h1; exact absurd h1 (lt_irrefl _)
  · rcases h2 with h2 | ⟨_, h2⟩
    · rw [he1] at h2; exact absurd h2 (lt_irrefl _)
    · rcases h1 with h1 | ⟨he11, h1⟩
      · rcases h2 with h2 | ⟨he2, _⟩
        · exact absurd h2 (lt_asymm h1)
        · rw [he2] at h1; exact absurd h1 (lt_irrefl _)
      · rcases h2 with h2 | ⟨_, h2⟩
        · rw [he11] at h2; exact absurd h2 (lt_irrefl _)
        · exact absurd h2 (lt_asymm h1)

theorem keyLeB_of_not_keyLt {x y : Nat × String × Int}
    (h : keyLt y x = false) : keyLeB x y = true := by
  rw [keyLt_false_iff] at h
  push_neg at h
  rw [keyLeB_iff]
  rcases lt_or_eq_of_le h.1 with h1 | h1
  · exact Or.inl h1
  · refine Or.inr ⟨h1, ?_⟩
    have h2 := h.2 h1.symm
    rcases lt_or_eq_of_le h2.1 with h3 | h3
    · exact Or.inl h3
    · exact Or.inr ⟨h3, h2.2 h3.symm⟩

theorem keyLt_of_keyLt_of_not_keyLt {z x y : Nat × String × Int}
    (hzx : keyLt z x = true) (hyx : keyLt y x = false) :
    keyLt z y = true := by
  have hxy := keyLeB_of_not_keyLt hyx
  rw [keyLt_iff] at hzx
  rw [keyLeB_iff] at hxy
  rw [keyLt_iff]
  rcases hzx with h1 | ⟨he1, h1⟩
  · rcases hxy with h2 | ⟨he2, _⟩
    · exact Or.inl (lt_trans h1 h2)
    · exact Or.inl (he2 ▸ h1)
  · rcases hxy with h2 | ⟨he2, h2⟩
    · exact Or.inl (he1 ▸ h2)
    · refine Or.inr ⟨he1.trans he2, ?_⟩
      rcases h1 with h1 | ⟨he11, h1⟩
      · rcases h2 with h2 | ⟨he21, _⟩
        · exact Or.inl (lt_trans h1 h2)
        · exact Or.inl (he21 ▸ h1)
      · rcases h2 with h2 | ⟨he21, h2⟩
        · exact Or.inl (he11 ▸ h2)
        · exact Or.inr ⟨he11.trans he21, lt_of_lt_of_le h1 h2⟩

theorem perm_insertStable (x : TaskS) : ∀ l : List TaskS,
    (insertStable x l).Perm (x :: l)
  | [] => List.Perm.refl _
  | y :: ys => by
    rw [insertStable]
    by_cases h : taskLt y x = true
    · rw [if_pos h]
      exact (List.Perm.cons y (perm_insertStable x ys)).trans
        (List.Perm.swap x y ys)
    · rw [if_neg h]

theorem perm_task_list_sort : ∀ l : List TaskS, (task_list_sort l).Perm l
  | [] => List.Perm.refl _
  | x :: xs => by
    rw [task_list_sort]
    exact (perm_insertStable x (task_list_sort xs)).trans
      (List.Perm.cons x (perm_task_list_sort xs))

theorem mem_insertStable {x z : TaskS} {l : List TaskS} :
    z ∈ insertStable x l ↔ z = x ∨ z ∈ l := by
  rw [(perm_insertStable x l).mem_iff, List.mem_cons]

theorem pairwise_insertStable {x : TaskS} {l : List TaskS}
    (h : l.Pairwise fun a b => taskLt b a = false) :
    (insertStable x l).Pairwise fun a b => taskLt b a = false := by
  induction l with
  | nil => simp [insertStable]
  | cons y ys ih =>
    have hy := (List.pairwise_cons.mp h).1
    have hys := (List.pairwise_cons.mp h).2
    rw [insertStable]
    by_cases hcase : taskLt y x = true
    · rw [if_pos hcase]
      refine List.pairwise_cons.mpr ⟨?_, ih hys⟩
      intro z hz
      rcases mem_insertStable.mp hz with rfl | hz2
      · exact keyLt_asymm hcase
      · exact hy z hz2
    · rw [if_neg hcase]
      have hxle : taskLt y x = false := Bool.not_eq_true _ ▸ hcase
      refine List.pairwise_cons.mpr ⟨?_, h⟩
      intro z hz
      rcases List.mem_cons.mp hz with rfl | hz2
      · exact hxle
      · rw [Bool.eq_false_iff]
        intro hzx
        have hzy := hy z hz2
        have h2 := keyLt_of_keyLt_of_not_keyLt hzx hxle
        rw [taskLt, h2] at hzy
        cases hzy

theorem pairwise_task_list_sort : ∀ l : List TaskS,
    (task_list_sort l).Pairwise fun a b => taskLt b a = false
  | [] => List.Pairwise.nil
  | x :: xs => by
    rw [task_list_sort]
    exact pairwise_insertStable (pairwise_task_list_sort xs)

theorem filter_insertStable_pos {x : TaskS} {p : TaskS → Bool}
    (hx : p x = true) (hlt : ∀ y, p y = true → taskLt y x = false) :
    ∀ l : List TaskS, (insertStable x l).filter p = x :: l.filter p
  | [] => by simp [insertStable, hx]
  | y :: ys => by
    rw [insertStable]
    by_cases hcase : taskLt y x = true
    · rw [if_pos hcase]
      have hpy : p y = false := by
        rw [Bool.eq_false_iff]
        intro hpy
        rw [hlt y hpy] at hcase
        cases hcase
      rw [List.filter_cons_of_neg (by simp [hpy]),
        filter_insertStable_pos hx hlt ys,
        List.filter_cons_of_neg (by simp [hpy])]
    · rw [if_neg hcase, List.filter_cons_of_pos (by simp [hx])]

theorem filter_insertStable_neg {x : TaskS} {p : TaskS → Bool}
    (hx : p x = false) :
    ∀ l : List TaskS, (insertStable x l).filter p = l.filter p
  | [] => by simp [insertStable, hx]
  | y :: ys => by
    rw [insertStable]
    by_cases hcase : taskLt y x = true
    · rw [if_pos hcase]
      by_cases hpy : p y = true
      · rw [List.filter_cons_of_pos (by simp [hpy]),
          filter_insertStable_neg hx ys,
          List.filter_cons_of_pos (by simp [hpy])]
      · have hpy2 : p y = false := Bool.not_eq_true _ ▸ hpy
        rw [List.filter_cons_of_neg (by simp [hpy2]),
          filter_insertStable_neg hx ys,
          List.filter_cons_of_neg (by simp [hpy2])]
    · rw [if_neg hcase, List.filter_cons_of_neg (by simp [hx])]

theorem task_sort_stable (k : Nat × String × Int) :
    ∀ l : List TaskS,
      (task_list_sort l).filter (fun t => decide (taskKey t = k)) =
        l.filter (fun t => decide (taskKey t = k))
  | [] => rfl
  | x :: xs => by
    rw [task_list_sort]
    by_cases hx : taskKey x = k
    · rw [filter_insertStable_pos (by simp [hx]) ?hlt,
        task_sort_stable k xs, List.filter_cons_of_pos (by simp [hx])]
      case hlt =>
        intro y hy
        rw [decide_eq_true_eq] at hy
        rw [taskLt, hy, hx, keyLt_irrefl]
    · rw [filter_insertStable_neg (by simp [hx]),
        task_sort_stable k xs, List.filter_cons_of_neg (by simp [hx])]

theorem specLeB_of_not_taskLt {a b : TaskS}
    (ha : a.status = "todo" ∨ a.status = "doing" ∨ a.status = "done")
    (hb : b.status = "todo" ∨ b.status = "doing" ∨ b.status = "done")
    (h : taskLt b a = false) : specLeB a b = true := by
  have hk : keyLeB (taskKey a) (taskKey b) = true :=
    keyLeB_of_not_keyLt h
  have hra : (if a.status = "todo" then (0 : Nat)
      else if a.status = "doing" then 1 else 2) = statusRank a.status := by
    rcases ha with h1 | h1 | h1 <;> simp [statusRank, h1]
  have hrb : (if b.status = "todo" then (0 : Nat)
      else if b.status = "doing" then 1 else 2) = statusRank b.status := by
    rcases hb with h1 | h1 | h1 <;> simp [statusRank, h1]
  rw [specLeB]
  simp only [hra, hrb]
  simpa [keyLeB, taskKey] using hk

/-- C5: `task_list` sorts by the composite key — status rank ascending
(todo=0, doing=1, done=2), then due date ascending with unset (or empty)
dates last via the far-future sentinel `9999-99-99`, then priority ascending
— and the sort is stable: the output is a permutation of the input, adjacent
pairs satisfy the specification's ordering, and the subsequence of tasks
sharing any fixed key value keeps its input order. -/
theorem task_list_sort_spec (items : List TaskS) (k : Nat × String × Int)
    (hv : ∀ t ∈ items,
      t.status = "todo" ∨ t.status = "doing" ∨ t.status = "done") :
    (task_list_sort items).Perm items ∧
      (task_list_sort items).Pairwise (fun a b => specLeB a b = true) ∧
      (task_list_sort items).filter (fun t => decide (taskKey t = k)) =
        items.filter (fun t => decide (taskKey t = k)) := by
  refine ⟨perm_task_list_sort items, ?_, task_sort_stable k items⟩
  have hmem : ∀ t ∈ task_list_sort items,
      t.status = "todo" ∨ t.status = "doing" ∨ t.status = "done" :=
    fun t ht => hv t ((perm_task_list_sort items).mem_iff.mp ht)
  exact List.Pairwise.imp_of_mem
    (fun ha hb h => specLeB_of_not_taskLt (hmem _ ha) (hmem _ hb) h)
    (pairwise_task_list_sort items)

/-- Witness for C5 on three tasks: the todo task sorts ahead of the two
doing tasks, and the two key-equal doing tasks keep their input order. -/
theorem task_list_sort_spec_witness :
    (task_list_sort [⟨"a", "T1", "doing", 3, none, none, "", ""⟩,
        ⟨"b", "T2", "todo", 2, some "2025-01-01", none, "", ""⟩,
        ⟨"c", "T3", "doing", 3, none, none, "", ""⟩]).Pairwise
        (fun a b => specLeB a b = true) ∧
      (task_list_sort [⟨"a", "T1", "doing", 3, none, none, "", ""⟩,
        ⟨"b", "T2", "todo", 2, some "2025-01-01", none, "", ""⟩,
        ⟨"c", "T3", "doing", 3, none, none, "", ""⟩]).filter
          (fun t => decide (taskKey t = (1, "9999-99-99", 3))) =
        [⟨"a", "T1", "doing", 3, none, none, "", ""⟩,
         ⟨"c", "T3", "doing", 3, none, none, "", ""⟩] := by
  have h := task_list_sort_spec
    [⟨"a", "T1", "doing", 3, none, none, "", ""⟩,
     ⟨"b", "T2", "todo", 2, some "2025-01-01", none, "", ""⟩,
     ⟨"c", "T3", "doing", 3, none, none, "", ""⟩]
    (1, "9999-99-99", 3) (by decide)
  exact ⟨h.2.1, h.2.2.trans (by decide)⟩

theorem plainChar_ne_quote {c : Char} (h : plainChar c = true) : c ≠ '"' := by
  simp [plainChar] at h
  exact h.1

theorem plainChar_not_break {c : Char} (h : plainChar c = true) :
    isLineBreak c = false := by
  simp [plainChar] at h
  exact h.2

theorem pyStrip_natDigits (n : Nat) : pyStrip (natDigits n) = natDigits n := by
  apply stripEnds_eq_self
  · intro c hc
    exact digitChar_not_space (natDigits_all_digit n c
      (List.mem_of_mem_head? (Option.mem_def.mpr hc)))
  · intro c hc
    exact digitChar_not_space (natDigits_all_digit n c
      (List.mem_of_getLast?_eq_some hc))

theorem pyStrip_cons_space (l : List Char) : pyStrip (' ' :: l) = pyStrip l := by
  rw [pyStrip, pyStrip, stripEnds, stripEnds, List.dropWhile_cons,
    if_pos (by decide)]

theorem stripQuotes_eq_self {l : List Char}
    (h1 : ∀ c, l.head? = some c → c ≠ '"')
    (h2 : ∀ c, l.getLast? = some c → c ≠ '"') : stripQuotes l = l := by
  apply stripEnds_eq_self
  · intro c hc
    simpa using h1 c hc
  · intro c hc
    simpa using h2 c hc

theorem stripQuotes_wrap {l : List Char} (h : ∀ c ∈ l, c ≠ '"') :
    stripQuotes ('"' :: (l ++ ['"'])) = l := by
  rw [stripQuotes, stripEnds, List.dropWhile_cons, if_pos (by decide)]
  cases l with
  | nil =>
    rw [List.nil_append, List.dropWhile_cons, if_pos (by decide)]
    rfl
  | cons x xs =>
    have hx : x ≠ '"' := h x (List.mem_cons_self _ _)
    rw [List.cons_append, List.dropWhile_cons, if_neg (by simpa using hx)]
    have hrev : (x :: (xs ++ ['"'])).reverse = '"' :: (x :: xs).reverse := by
      rw [← List.cons_append, List.reverse_append]
      rfl
    rw [hrev, List.dropWhile_cons, if_pos (by decide)]
    have : List.dropWhile (fun c => decide (c = '"')) (x :: xs).reverse =
        (x :: xs).reverse := by
      apply dropWhile_eq_self_of_head
      intro c hc
      rw [List.head?_reverse] at hc
      have := h c (List.mem_of_getLast?_eq_some hc)
      simpa using this
    rw [this, List.reverse_reverse]

theorem splitAtColon_key {key rest : List Char} (h : ∀ c ∈ key, c ≠ ':') :
    splitAtColon (key ++ ':' :: rest) = some (key, rest) := by
  induction key with
  | nil => simp [splitAtColon]
  | cons c cs ih =>
    rw [List.cons_append, splitAtColon,
      if_neg (h c (List.mem_cons_self _ _)),
      ih (fun d hd => h d (List.mem_cons_of_mem _ hd))]

theorem collectMeta_step {line k v : List Char} {rest : List (List Char)}
    (h1 : pyStrip line ≠ "---".data)
    (h2 : splitAtColon (pyStrip line) = some (k, v)) :
    collectMeta (line :: rest) =
      (pyStrip k, stripQuotes (pyStrip v)) :: collectMeta rest := by
  rw [collectMeta, if_neg h1, h2]

theorem collectMeta_stop (rest : List (List Char)) :
    collectMeta ("---".data :: rest) = [] := by
  rw [collectMeta, if_pos (by decide)]

theorem pyStrip_eq_self_of_ends {l : List Char} {a b : Char}
    (hhead : l.head? = some a) (ha : isPySpace a = false)
    (hlast : l.getLast? = some b) (hb : isPySpace b = false) :
    pyStrip l = l := by
  apply stripEnds_eq_self
  · intro c hc
    rw [hhead] at hc
    rw [← Option.some.inj hc]
    exact ha
  · intro c hc
    rw [hlast] at hc
    rw [← Option.some.inj hc]
    exact hb

theorem ne_dashes_of_head {l : List Char} {a : Char} (hh : l.head? = some a)
    (ha : a ≠ '-') : l ≠ "---".data := by
  intro he
  apply ha
  have h2 : some a = some '-' := by rw [← hh, he]; rfl
  exact Option.some.inj h2

theorem parse_quoted_value {l : List Char} (hq : ∀ c ∈ l, c ≠ '"') :
    stripQuotes (pyStrip (' ' :: '"' :: (l ++ ['"']))) = l := by
  rw [pyStrip_cons_space]
  have hlast : ('"' :: (l ++ ['"'])).getLast? = some '"' := by
    rw [show ('"' :: (l ++ ['"'])) = (('"' :: l) ++ ['"']) from by
      rw [List.cons_append], List.getLast?_concat]
  have hself : pyStrip ('"' :: (l ++ ['"'])) = '"' :: (l ++ ['"']) :=
    pyStrip_eq_self_of_ends rfl (by decide) hlast (by decide)
  rw [hself]
  exact stripQuotes_wrap hq

theorem meta_quoted_line {key l : List Char} {rest : List (List Char)}
    {a : Char}
    (hhead : (key ++ ':' :: ' ' :: '"' :: (l ++ ['"'])).head? = some a)
    (ha : isPySpace a = false) (had : a ≠ '-')
    (hkc : ∀ c ∈ key, c ≠ ':') (hkq : pyStrip key = key)
    (hq : ∀ c ∈ l, c ≠ '"') :
    collectMeta ((key ++ ':' :: ' ' :: '"' :: (l ++ ['"'])) :: rest) =
      (key, l) :: collectMeta rest := by
  have hlast : (key ++ ':' :: ' ' :: '"' :: (l ++ ['"'])).getLast? =
      some '"' := by
    rw [show (':' :: ' ' :: '"' :: (l ++ ['"'])) =
        ((':' :: ' ' :: '"' :: l) ++ ['"']) from by simp,
      ← List.append_assoc, List.getLast?_concat]
  have hstrip : pyStrip (key ++ ':' :: ' ' :: '"' :: (l ++ ['"'])) =
      key ++ ':' :: ' ' :: '"' :: (l ++ ['"']) :=
    pyStrip_eq_self_of_ends hhead ha hlast (by decide)
  have hne : pyStrip (key ++ ':' :: ' ' :: '"' :: (l ++ ['"'])) ≠
      "---".data := by
    rw [hstrip]
    exact ne_dashes_of_head hhead had
  have hsp : splitAtColon (pyStrip (key ++ ':' :: ' ' :: '"' ::
      (l ++ ['"']))) = some (key, ' ' :: '"' :: (l ++ ['"'])) := by
    rw [hstrip]
    exact splitAtColon_key hkc
  rw [collectMeta_step hne hsp, hkq, parse_quoted_value hq]

theorem meta_id_line (tid : Nat) (rest : List (List Char)) :
    collectMeta (("id: ".data ++ natDigits tid) :: rest) =
      ("id".data, natDigits tid) :: collectMeta rest := by
  have hlast0 : (natDigits tid).getLast?.isSome := by
    rw [Option.isSome_iff_ne_none]
    intro he
    exact natDigits_ne_nil tid (List.getLast?_eq_none_iff.mp he)
  rcases Option.isSome_iff_exists.mp hlast0 with ⟨d, hd⟩
  have hdd : isDigitChar d = true :=
    natDigits_all_digit tid d (List.mem_of_getLast?_eq_some hd)
  have hlast : ("id: ".data ++ natDigits tid).getLast? = some d := by
    rw [List.getLast?_append_of_ne_nil _ (natDigits_ne_nil tid)]
    exact hd
  have hstrip : pyStrip ("id: ".data ++ natDigits tid) =
      "id: ".data ++ natDigits tid :=
    pyStrip_eq_self_of_ends rfl (by decide) hlast (digitChar_not_space hdd)
  have hne : pyStrip ("id: ".data ++ natDigits tid) ≠ "---".data := by
    rw [hstrip]
    exact ne_dashes_of_head rfl (by decide)
  have hsp : splitAtColon (pyStrip ("id: ".data ++ natDigits tid)) =
      some ("id".data, ' ' :: natDigits tid) := by
    rw [hstrip,
      show ("id: ".data ++ natDigits tid) =
        ("id".data ++ ':' :: ' ' :: natDigits tid) from rfl]
    exact splitAtColon_key (by decide)
  rw [collectMeta_step hne hsp, pyStrip_cons_space, pyStrip_natDigits,
    stripQuotes_eq_self
      (fun c hc => digitChar_ne_quote (natDigits_all_digit tid c
        (List.mem_of_mem_head? (Option.mem_def.mpr hc))))
      (fun c hc => digitChar_ne_quote (natDigits_all_digit tid c
        (List.mem_of_getLast?_eq_some hc)))]
  rfl

theorem meta_completed_line (completed : Bool) (rest : List (List Char)) :
    collectMeta (("completed: ".data ++
        (if completed then "true".data else "false".data)) :: rest) =
      ("completed".data,
        if completed then "true".data else "false".data) ::
        collectMeta rest := by
  cases completed with
  | true =>
    have h2 : splitAtColon (pyStrip ("completed: ".data ++ "true".data)) =
        some ("completed".data, ' ' :: "true".data) := by decide
    rw [if_pos rfl, collectMeta_step (by decide) h2]
    exact congrArg (· :: collectMeta rest) (by decide)
  | false =>
    have h2 : splitAtColon (pyStrip ("completed: ".data ++ "false".data)) =
        some ("completed".data, ' ' :: "false".data) := by decide
    rw [if_neg (by decide), collectMeta_step (by decide) h2]
    exact congrArg (· :: collectMeta rest) (by decide)

theorem no_break_append {a b : List Char}
    (ha : ∀ c ∈ a, isLineBreak c = false)
    (hb : ∀ c ∈ b, isLineBreak c = false) :
    ∀ c ∈ a ++ b, isLineBreak c = false := by
  intro c hcm
  rcases List.mem_append.mp hcm with h | h
  exacts [ha c h, hb c h]

theorem no_break_digits (n : Nat) :
    ∀ c ∈ natDigits n, isLineBreak c = false :=
  fun c hcm => digitChar_not_break (natDigits_all_digit n c hcm)

/-- C1 (amended): for every id and completion flag, and every title,
description and created_at containing neither the double quote nor any
`splitlines` line-boundary character, the record parsed by `list_tasks` from
the file written by `save_task` has exactly the saved id, title,
description, completed flag and created_at.  (A quote character breaks the
round trip — the writer escapes `"` as `\"` but the reader only strips outer
quotes; see the counterexample.) -/
theorem markdown_roundtrip (tid : Nat)
    (title description created_at : List Char) (completed : Bool)
    (ht : ∀ c ∈ title, plainChar c = true)
    (hd : ∀ c ∈ description, plainChar c = true)
    (hca : ∀ c ∈ created_at, plainChar c = true) :
    parseTaskContent (saveContent tid title description completed created_at)
      = some ⟨tid, title, description, completed, created_at⟩ := by
  have htq : ∀ c ∈ title, c ≠ '"' := fun c h => plainChar_ne_quote (ht c h)
  have hdq : ∀ c ∈ description, c ≠ '"' :=
    fun c h => plainChar_ne_quote (hd c h)
  have hcq : ∀ c ∈ created_at, c ≠ '"' :=
    fun c h => plainChar_ne_quote (hca c h)
  have htb : ∀ c ∈ title, isLineBreak c = false :=
    fun c h => plainChar_not_break (ht c h)
  have hdb : ∀ c ∈ description, isLineBreak c = false :=
    fun c h => plainChar_not_break (hd c h)
  have hcb : ∀ c ∈ created_at, isLineBreak c = false :=
    fun c h => plainChar_not_break (hca c h)
  have hesc : escQuotes title = title := escQuotes_eq_self htq
  have hescd : escQuotes description = description := escQuotes_eq_self hdq
  have hcontent : saveContent tid title description completed created_at =
      joinNL ("---".data :: ("id: ".data ++ natDigits tid) ::
        ("title: \"".data ++ (title ++ ['"'])) ::
        ("description: \"".data ++ (description ++ ['"'])) ::
        ("completed: ".data ++
          (if completed then "true".data else "false".data)) ::
        ("created_at: \"".data ++ (created_at ++ ['"'])) ::
        "---".data :: ([] : List Char) ::
        ("# ".data ++ title) :: ([] : List Char) ::
        (if description.isEmpty then []
         else [description, ([] : List Char)])) := by
    rw [saveContent, saveLines, hesc, hescd]
    simp [List.append_assoc]
  have hnbE : ∀ l ∈ ("---".data :: ("id: ".data ++ natDigits tid) ::
      ("title: \"".data ++ (title ++ ['"'])) ::
      ("description: \"".data ++ (description ++ ['"'])) ::
      ("completed: ".data ++
        (if completed then "true".data else "false".data)) ::
      ("created_at: \"".data ++ (created_at ++ ['"'])) ::
      "---".data :: ([] : List Char) ::
      ("# ".data ++ title) :: ([] : List Char) ::
      (if description.isEmpty then []
       else [description, ([] : List Char)])),
      ∀ c ∈ l, isLineBreak c = false := by
    intro l hl
    simp only [List.mem_cons] at hl
    rcases hl with rfl | rfl | rfl | rfl | rfl | rfl | rfl | rfl | rfl |
      rfl | hl
    · decide
    · exact no_break_append (by decide) (no_break_digits tid)
    · exact no_break_append (by decide) (no_break_append htb (by decide))
    · exact no_break_append (by decide) (no_break_append hdb (by decide))
    · exact no_break_append (by decide) (by cases completed <;> decide)
    · exact no_break_append (by decide) (no_break_append hcb (by decide))
    · decide
    · intro c hcm; cases hcm
    · exact no_break_append (by decide) htb
    · intro c hcm; cases hcm
    · by_cases hde : description.isEmpty
      · rw [if_pos hde] at hl; cases hl
      · rw [if_neg hde] at hl
        simp only [List.mem_cons, List.not_mem_nil, or_false] at hl
        rcases hl with rfl | rfl
        · exact hdb
        · intro c hcm; cases hcm
  have hsplit := @pySplitlines_joinNL
    ("---".data :: ("id: ".data ++ natDigits tid) ::
      ("title: \"".data ++ (title ++ ['"'])) ::
      ("description: \"".data ++ (description ++ ['"'])) ::
      ("completed: ".data ++
        (if completed then "true".data else "false".data)) ::
      ("created_at: \"".data ++ (created_at ++ ['"'])) ::
      "---".data :: ([] : List Char) ::
      ("# ".data ++ title) :: ([] : List Char) ::
      (if description.isEmpty then []
       else [description, ([] : List Char)]))
    (List.cons_ne_nil _ _) hnbE
  have hlastE : (("---".data :: ("id: ".data ++ natDigits tid) ::
      ("title: \"".data ++ (title ++ ['"'])) ::
      ("description: \"".data ++ (description ++ ['"'])) ::
      ("completed: ".data ++
        (if completed then "true".data else "false".data)) ::
      ("created_at: \"".data ++ (created_at ++ ['"'])) ::
      "---".data :: ([] : List Char) ::
      ("# ".data ++ title) :: ([] : List Char) ::
      (if description.isEmpty then []
       else [description, ([] : List Char)]))).getLast? =
      some ([] : List Char) := by
    by_cases hde : description.isEmpty
    · simp [hde]
    · simp [hde]
  rw [if_pos hlastE] at hsplit
  obtain ⟨R, hR⟩ : ∃ R, (("---".data :: ("id: ".data ++ natDigits tid) ::
      ("title: \"".data ++ (title ++ ['"'])) ::
      ("description: \"".data ++ (description ++ ['"'])) ::
      ("completed: ".data ++
        (if completed then "true".data else "false".data)) ::
      ("created_at: \"".data ++ (created_at ++ ['"'])) ::
      "---".data :: ([] : List Char) ::
      ("# ".data ++ title) :: ([] : List Char) ::
      (if description.isEmpty then []
       else [description, ([] : List Char)]))).dropLast =
      "---".data :: ("id: ".data ++ natDigits tid) ::
        ("title: \"".data ++ (title ++ ['"'])) ::
        ("description: \"".data ++ (description ++ ['"'])) ::
        ("completed: ".data ++
          (if completed then "true".data else "false".data)) ::
        ("created_at: \"".data ++ (created_at ++ ['"'])) ::
        "---".data :: R := by
    by_cases hde : description.isEmpty
    · exact ⟨[[], "# ".data ++ title], by simp [hde]⟩
    · exact ⟨[[], "# ".data ++ title, [], description], by simp [hde]⟩
  rw [hR] at hsplit
  rw [hcontent, parseTaskContent, hsplit, metaOf, if_pos (by decide),
    meta_id_line,
    show ("title: \"".data ++ (title ++ ['"'])) =
      ("title".data ++ ':' :: ' ' :: '"' :: (title ++ ['"'])) from rfl,
    meta_quoted_line (show ("title".data ++ ':' :: ' ' :: '"' ::
      (title ++ ['"'])).head? = some 't' from rfl)
      (by decide) (by decide) (by decide) (by decide) htq,
    show ("description: \"".data ++ (description ++ ['"'])) =
      ("description".data ++ ':' :: ' ' :: '"' ::
        (description ++ ['"'])) from rfl,
    meta_quoted_line (show ("description".data ++ ':' :: ' ' :: '"' ::
      (description ++ ['"'])).head? = some 'd' from rfl)
      (by decide) (by decide) (by decide) (by decide) hdq,
    meta_completed_line,
    show ("created_at: \"".data ++ (created_at ++ ['"'])) =
      ("created_at".data ++ ':' :: ' ' :: '"' ::
        (created_at ++ ['"'])) from rfl,
    meta_quoted_line (show ("created_at".data ++ ':' :: ' ' :: '"' ::
      (created_at ++ ['"'])).head? = some 'c' from rfl)
      (by decide) (by decide) (by decide) (by decide) hcq,
    collectMeta_stop]
  have hg1 : dictGet [("id".data, natDigits tid), ("title".data, title),
      ("description".data, description),
      ("completed".data, if completed then "true".data else "false".data),
      ("created_at".data, created_at)] "id".data = some (natDigits tid) := by
    simp [dictGet, List.filter]
  have hg2 : dictGet [("id".data, natDigits tid), ("title".data, title),
      ("description".data, description),
      ("completed".data, if completed then "true".data else "false".data),
      ("created_at".data, created_at)] "title".data = some title := by
    simp [dictGet, List.filter]
  have hg3 : dictGet [("id".data, natDigits tid), ("title".data, title),
      ("description".data, description),
      ("completed".data, if completed then "true".data else "false".data),
      ("created_at".data, created_at)] "description".data =
      some description := by
    simp [dictGet, List.filter]
  have hg4 : dictGet [("id".data, natDigits tid), ("title".data, title),
      ("description".data, description),
      ("completed".data, if completed then "true".data else "false".data),
      ("created_at".data, created_at)] "completed".data =
      some (if completed then "true".data else "false".data) := by
    simp [dictGet, List.filter]
  have hg5 : dictGet [("id".data, natDigits tid), ("title".data, title),
      ("description".data, description),
      ("completed".data, if completed then "true".data else "false".data),
      ("created_at".data, created_at)] "created_at".data =
      some created_at := by
    simp [dictGet, List.filter]
  have hcp : decide (lowerChars
      (if completed then "true".data else "false".data) = "true".data) =
      completed := by
    cases completed <;> decide
  simp only [hg1, hg2, hg3, hg4, hg5, pyInt_natDigits, Option.getD, hcp]

/-- Counterexample to C1 as stated: for the title `a"b`, `save_task` writes
the escaped `title: "a\"b"`, but `list_tasks` only strips the outer quotes
and never unescapes, so the decoded title is `a\"b`, not `a"b`. -/
theorem markdown_roundtrip_cex :
    parseTaskContent (saveContent 1 ['a', '"', 'b'] [] false ['x']) =
        some ⟨1, ['a', '\\', '"', 'b'], [], false, ['x']⟩ ∧
      parseTaskContent (saveContent 1 ['a', '"', 'b'] [] false ['x']) ≠
        some ⟨1, ['a', '"', 'b'], [], false, ['x']⟩ := by decide

/-- Witness for C1 (amended) on a quote-free record with spaces, digits and
a colon-bearing timestamp. -/
theorem markdown_roundtrip_witness :
    parseTaskContent (saveContent 7 "Hello world".data "desc".data true
        "2024-01-02 10:00:00".data) =
      some ⟨7, "Hello world".data, "desc".data, true,
        "2024-01-02 10:00:00".data⟩ :=
  markdown_roundtrip 7 "Hello world".data "desc".data
    "2024-01-02 10:00:00".data true (by decide) (by decide) (by decide)
